import Mathlib

/-!
Verification development for the kohai tag service.

Shallow embedding of the core components:
* the bad-content filter (`src/utils/badwords.ts`),
* the IGDB token guard (`src/utils/igdb.ts`) including an explicit
  event-loop model of `ensureValidIgdbToken`,
* the two bounded upstream caches (`src/handlers/igdb.ts`, `search` and
  `getGame`),
* the contribution store and aggregation step
  (`src/handlers/igdb.ts`, `createTags` / `processUserTags`).

Machine dates (`Date`, `getTime`) are modelled as natural-number
milliseconds; MongoDB `ObjectId`s as natural numbers; collections as
Lean lists in insertion order.
-/

namespace Kohai

/-! ### Bad-content filter (`src/utils/badwords.ts`) -/

/-- The fixed blocklist (`badWords` in `src/utils/badwords.ts`). -/
def badWords : List String :=
  ["nigger", "faggot", "kike", "chink", "spic", "gook", "rape", "rapist"]

/-- The leetspeak substitution table (`leetMap`); characters not in the
table are left unchanged. -/
def leetMap (c : Char) : Char :=
  if c = '0' then 'o'
  else if c = '1' then 'i'
  else if c = '3' then 'e'
  else if c = '4' then 'a'
  else if c = '5' then 's'
  else if c = '7' then 't'
  else if c = '@' then 'a'
  else if c = '$' then 's'
  else if c = '!' then 'i'
  else if c = '|' then 'i'
  else c

/-- Characters kept by the strip step `replace(/[^a-z0-9@!$|]/g, '')`. -/
def keptChar (c : Char) : Bool :=
  ('a' ≤ c && c ≤ 'z') || ('0' ≤ c && c ≤ '9') ||
    c = '@' || c = '!' || c = '$' || c = '|'

/-- JavaScript `String.prototype.toLowerCase`, on the ASCII fragment the
blocklist exercises. -/
def jsToLower (s : String) : String :=
  String.mk (s.toList.map Char.toLower)

/-- `normalizeTag`: lowercase, strip characters outside `[a-z0-9@!$|]`,
then map every remaining character through the leetspeak table. -/
def normalizeTag (tag : String) : String :=
  String.mk (((jsToLower tag).toList.filter keptChar).map leetMap)

/-- `needle` occurs as a prefix of `hay` (character lists). -/
def isPrefixOfChars : List Char → List Char → Bool
  | [], _ => true
  | _ :: _, [] => false
  | n :: ns, h :: hs => n = h && isPrefixOfChars ns hs

/-- JavaScript `String.prototype.includes`: `needle` occurs as a
contiguous substring of `hay`. -/
def containsSub (hay needle : List Char) : Bool :=
  match hay with
  | [] => needle.isEmpty
  | _ :: t => isPrefixOfChars needle hay || containsSub t needle

/-- `containsBadWords`: some tag, after normalization, contains some
blocklist term as a substring. -/
def containsBadWords (tags : List String) : Bool :=
  tags.any (fun tag =>
    badWords.any (fun w => containsSub (normalizeTag tag).toList w.toList))

/-! ### Upstream caches (`src/handlers/igdb.ts`)

`searchCache` and `gameCache` are JavaScript `Map`s from string keys to
`{ data, time }` entries.  A `Map` keeps keys in insertion order;
`set` on an existing key updates the value in place, `delete` removes
an entry, and `[...map.keys()][0]` is the first key in that order.
We model a `Map` as an association list in insertion order; the cached
payload is opaque and modelled as a `Nat` identifier. -/

/-- One cache entry: `{ data, time }`. -/
structure CacheEntry where
  data : Nat
  time : Nat
deriving DecidableEq, Repr

/-- The cache map type, keys in insertion order. -/
abbrev Cache := List (String × CacheEntry)

/-- JavaScript `Map.prototype.set`: update in place if the key exists,
otherwise append at the end of the insertion order. -/
def mapSet (k : String) (v : CacheEntry) : Cache → Cache
  | [] => [(k, v)]
  | (k', v') :: rest =>
    if k' = k then (k, v) :: rest else (k', v') :: mapSet k v rest

/-- `map.delete([...map.keys()][0])`: remove the first entry in
insertion order (a no-op on an empty map, matching
`Map.prototype.delete` of `undefined`). -/
def deleteOldest : Cache → Cache
  | [] => []
  | _ :: rest => rest

/-- The keys of a cache, in insertion order. -/
def cacheKeys (m : Cache) : List String := m.map Prod.fst

/-- The store step of `search` (lines 62–65) and `getGame`
(lines 161–164): `if (cache.size >= MAX) cache.delete([...keys()][0]);
cache.set(key, { data, time })`. -/
def cacheStore (maxSize : Nat) (k : String) (v : CacheEntry) (m : Cache) : Cache :=
  mapSet k v (if maxSize ≤ m.length then deleteOldest m else m)

/-- `MAX_SEARCH_CACHE_SIZE` and `MAX_GAME_CACHE_SIZE`. -/
def MAX_CACHE_SIZE : Nat := 50

/-- The TTL-checked lookup (`search` lines 39–42, `getGame` lines
137–140): a hit only counts when the entry is younger than the TTL. -/
def cacheLookup (ttl now : Nat) (k : String) (m : Cache) : Option Nat :=
  match m.find? (fun kv => kv.1 = k) with
  | some (_, e) => if now - e.time < ttl then some e.data else none
  | none => none

/-! ### Token exchange (`src/utils/igdb.ts`, `connectIgdb`) -/

/-- The credential slots that `connectIgdb` touches via
`setEnv`/`getEnv` (`IGDB_ACCESS_TOKEN`, `IGDB_EXPIRES_AT`). -/
structure CredEnv where
  accessToken : Option String
  expiresAt : Option Nat
deriving DecidableEq, Repr

/-- Outcome of the `fetch` of the credential-exchange endpoint:
a transport error (the promise rejects) or an HTTP response carrying an
`ok` flag, a status code, an optional `access_token` field and an
`expires_in` field. -/
inductive FetchOutcome where
  | transportError
  | response (ok : Bool) (status : Nat) (accessToken : Option String) (expiresIn : Nat)
deriving DecidableEq, Repr

/-- Whether a JSON `access_token` value is falsy in JavaScript
(`!data.access_token`): missing or the empty string. -/
def tokenFalsy : Option String → Bool
  | none => true
  | some t => t.isEmpty

/-- `connectIgdb` as a state transformer over the credential slots:
it throws (`Except.error`) on transport failure, on a non-OK status and
on a falsy `access_token`; only on success does it store the new token
and the expiry `Date.now() + expires_in * 1000`. -/
def connectIgdb (fetch : FetchOutcome) (now : Nat) (env : CredEnv) :
    Except String Unit × CredEnv :=
  match fetch with
  | .transportError => (.error "fetch failed", env)
  | .response ok status tok expiresIn =>
    if !ok then
      (.error ("HTTP error! Status: " ++ toString status), env)
    else if tokenFalsy tok then
      (.error "Failed to get access token from IGDB", env)
    else
      (.ok (), { accessToken := tok, expiresAt := some (now + expiresIn * 1000) })

/-! ### `ensureValidIgdbToken` under the event loop
(`src/utils/igdb.ts`, lines 95–128)

JavaScript is single threaded: each caller of `ensureValidIgdbToken`
runs synchronously up to its next `await`, and a settled promise resumes
its awaiters in the order they attached.  We model `N` concurrent calls
made while the credential is expired or missing as coroutines over a
shared guard state.  Each coroutine is at one of these points:

* `start` — about to run the body from line 96;
* `awaitingPrev p` — suspended at `await tokenRefreshPromise`
  (line 102) on promise `p` created by an earlier caller;
* `awaitingOwn p` — suspended at `await tokenRefreshPromise`
  (line 125) on the promise `p` it created itself;
* `returned b` — the call returned `b`;
* `threw` — the rejection of the awaited own promise propagated out
  (line 125 has no try/catch).

Promises are numbered in creation order and settle in creation order
(the fetch started earlier finishes first); `outcome k` tells whether
the `k`-th credential exchange succeeds.  A successful exchange makes
`isIgdbTokenValid()` true for the rest of the run (a fresh expiry),
a failed one leaves it false. -/

/-- Where one `ensureValidIgdbToken` call currently stands. -/
inductive CallerPhase where
  | start
  | awaitingPrev (p : Nat)
  | awaitingOwn (p : Nat)
  | returned (b : Bool)
  | threw
deriving DecidableEq, Repr

/-- Shared state: token validity, the `tokenRefreshPromise` slot, the
number of promises created and settled, and how many credential-exchange
network calls have been issued. -/
structure GuardState where
  valid : Bool
  inflight : Option Nat
  nextPromise : Nat
  settled : Nat
  networkCalls : Nat
deriving DecidableEq, Repr

/-- Lines 114–123: build the refresh IIFE.  The async function body runs
synchronously up to the `fetch` inside `connectIgdb`, so creating the
promise issues the network call at once; the slot is published before
the creator suspends. -/
def startRefresh (s : GuardState) : Nat × GuardState :=
  (s.nextPromise,
   { s with
      nextPromise := s.nextPromise + 1
      inflight := some s.nextPromise
      networkCalls := s.networkCalls + 1 })

/-- The synchronous prefix of one call (lines 96–125, first
suspension): return early on a valid token, await a published refresh
promise if any, otherwise create one and await it. -/
def stepStart (s : GuardState) (c : CallerPhase) : CallerPhase × GuardState :=
  match c with
  | .start =>
    if s.valid then (.returned true, s)
    else
      match s.inflight with
      | some p => (.awaitingPrev p, s)
      | none =>
        let (id, s') := startRefresh s
        (.awaitingOwn id, s')
  | c => (c, s)

/-- Resume one caller after promise `pid` settled with outcome `ok`.
A caller at line 102 re-checks validity on success and otherwise
catches, warns, and starts its own refresh (lines 103–123); a caller at
line 125 returns `isIgdbTokenValid()` on success and rethrows on
failure. -/
def stepResume (pid : Nat) (ok : Bool) (s : GuardState) (c : CallerPhase) :
    CallerPhase × GuardState :=
  match c with
  | .awaitingPrev p =>
    if p = pid then
      if ok && s.valid then (.returned true, s)
      else
        let (id, s') := startRefresh s
        (.awaitingOwn id, s')
    else (c, s)
  | .awaitingOwn p =>
    if p = pid then
      if ok then (.returned s.valid, s) else (.threw, s)
    else (c, s)
  | c => (c, s)

/-- Run a per-caller step over all coroutines in attach order,
threading the shared state. -/
def foldCallers (f : GuardState → CallerPhase → CallerPhase × GuardState) :
    GuardState → List CallerPhase → List CallerPhase × GuardState
  | s, [] => ([], s)
  | s, c :: cs =>
    let (c', s') := f s c
    let (cs', s'') := foldCallers f s' cs
    (c' :: cs', s'')

/-- Settle the oldest unsettled promise: on success the token becomes
valid, the `finally` clears the slot (line 121, unconditionally), and
the awaiters resume in attach order. -/
def settleRound (outcome : Nat → Bool) (s : GuardState) (cs : List CallerPhase) :
    GuardState × List CallerPhase :=
  let pid := s.settled
  let ok := outcome pid
  let s1 := { s with valid := s.valid || ok, inflight := none, settled := s.settled + 1 }
  let (cs', s2) := foldCallers (stepResume pid ok) s1 cs
  (s2, cs')

/-- Drive settle rounds until every created promise has settled. -/
def runRounds (outcome : Nat → Bool) :
    Nat → GuardState → List CallerPhase → GuardState × List CallerPhase
  | 0, s, cs => (s, cs)
  | fuel + 1, s, cs =>
    if s.settled < s.nextPromise then
      let (s', cs') := settleRound outcome s cs
      runRounds outcome fuel s' cs'
    else (s, cs)

/-- Initial guard state: token expired or missing, no refresh in
flight. -/
def initGuard : GuardState :=
  { valid := false, inflight := none, nextPromise := 0, settled := 0, networkCalls := 0 }

/-- `n` concurrent `ensureValidIgdbToken()` calls while the credential
is invalid: every caller runs its synchronous prefix, then promises
settle in creation order until none are pending. -/
def ensureRun (n : Nat) (outcome : Nat → Bool) : GuardState × List CallerPhase :=
  let (cs, s) := foldCallers stepStart initGuard (List.replicate n .start)
  runRounds outcome (n + 1) s cs

/-! ### Contribution store and aggregation
(`src/handlers/igdb.ts`, `createTags` and `processUserTags`)

MongoDB collections are modelled as lists in insertion order (`find`
without a sort returns natural order, `insertMany` appends).
`ObjectId`s are natural numbers; `new ObjectId()` is modelled by an
explicit supply of fresh identifiers starting at `nextId`.  The `_id`
field is always present on stored rows, so the `_id !== undefined`
checks of the source are identically true.  `Date`s are natural-number
milliseconds. -/

/-- `MediaType` (`src/models/mediaTag.ts`). -/
inductive MediaType where
  | videoGame
  | movie
deriving DecidableEq, Repr

/-- One `userContributions` row (`src/models/userContribution.ts`). -/
structure UserContribution where
  id : Nat
  userId : Nat
  mediaSlug : String
  mediaType : MediaType
  tag : String
  timestamp : Nat
  updated_at : Option Nat
deriving DecidableEq, Repr

/-- One `mediaTags` record (`src/models/mediaTag.ts`). -/
structure MediaTagRec where
  mediaSlug : String
  mediaType : MediaType
  tags : List String
  updated_at : Nat
deriving DecidableEq, Repr

/-- The two collections `createTags` touches. -/
structure Db where
  userContributions : List UserContribution
  mediaTags : List MediaTagRec
deriving DecidableEq, Repr

/-- The sort key of `processUserTags`:
`(c.updated_at ?? c.timestamp).getTime()`. -/
def timeOf (c : UserContribution) : Nat :=
  c.updated_at.getD c.timestamp

/-- Insert one row into a list already sorted by `timeOf` descending,
before the first row whose key is not strictly greater.  Placing the
incoming row before later rows with an equal key reproduces the stable
`Array.prototype.sort` with comparator `timeB - timeA`. -/
def insertByTime (c : UserContribution) : List UserContribution → List UserContribution
  | [] => [c]
  | d :: ds =>
    if timeOf c < timeOf d then d :: insertByTime c ds else c :: d :: ds

/-- Stable sort by `timeOf` descending (the
`allRelevantContributions.sort(...)` step). -/
def sortByTimeDesc : List UserContribution → List UserContribution
  | [] => []
  | c :: cs => insertByTime c (sortByTimeDesc cs)

/-- `existingTagsMap.set(c.tag, c)` over an association list: a later
row with the same tag overwrites the earlier one, insertion order of
keys preserved. -/
def tagMapSet (c : UserContribution) :
    List (String × UserContribution) → List (String × UserContribution)
  | [] => [(c.tag, c)]
  | (k, v) :: rest =>
    if k = c.tag then (c.tag, c) :: rest else (k, v) :: tagMapSet c rest

/-- `existingContributions.forEach((c) => existingTagsMap.set(c.tag, c))`. -/
def buildTagMap (l : List UserContribution) : List (String × UserContribution) :=
  l.foldl (fun m c => tagMapSet c m) []

/-- `existingTagsMap.get(t)` (`has` is `isSome` of this). -/
def tagMapFind (m : List (String × UserContribution)) (t : String) :
    Option UserContribution :=
  match m.find? (fun kv => kv.1 = t) with
  | some (_, v) => some v
  | none => none

/-- `existingTagsMap.delete(t)`. -/
def tagMapErase (m : List (String × UserContribution)) (t : String) :
    List (String × UserContribution) :=
  match m with
  | [] => []
  | (k, v) :: rest => if k = t then rest else (k, v) :: tagMapErase rest t

/-- The `for (const tag of tags)` loop of `processUserTags`
(lines 346–366): returns `(tagsToKeep, tagsToInsert, tagsToUpdate)`.
Fresh `ObjectId`s for inserted rows are `nextId`, `nextId + 1`, …
in order. -/
def partitionTags (userId : Nat) (gameId : String) (now : Nat) :
    List (String × UserContribution) → List String → Nat →
    List String × List UserContribution × List Nat
  | _, [], _ => ([], [], [])
  | m, t :: ts, nextId =>
    match tagMapFind m t with
    | some uc =>
      let rest := partitionTags userId gameId now (tagMapErase m t) ts nextId
      (t :: rest.1, rest.2.1, uc.id :: rest.2.2)
    | none =>
      let newUc : UserContribution :=
        { id := nextId, userId := userId, mediaSlug := gameId,
          mediaType := .videoGame, tag := t, timestamp := now,
          updated_at := some now }
      let rest := partitionTags userId gameId now m ts (nextId + 1)
      (t :: rest.1, newUc :: rest.2.1, rest.2.2)

/-- Membership of a row in the caller's `(user, mediaSlug, videoGame)`
tuple (the `find` filter of line 331). -/
def inTuple (userId : Nat) (gameId : String) (c : UserContribution) : Bool :=
  c.userId == userId && c.mediaSlug == gameId && c.mediaType == .videoGame

/-- The rows `find` returns for the tuple, in collection order. -/
def tupleRows (userId : Nat) (gameId : String) (db : List UserContribution) :
    List UserContribution :=
  db.filter (inTuple userId gameId)

/-- `tagsToKeep` of the partition loop: every submitted tag is pushed,
in both branches (lines 352 and 364). -/
def tagsToKeepOf (userId : Nat) (gameId : String) (tags : List String)
    (now nextId : Nat) (db : List UserContribution) : List String :=
  (partitionTags userId gameId now (buildTagMap (tupleRows userId gameId db)) tags nextId).1

/-- `tagsToInsert` (lines 354–365): one freshly built row per submitted
tag that is not already live. -/
def insertedRows (userId : Nat) (gameId : String) (tags : List String)
    (now nextId : Nat) (db : List UserContribution) : List UserContribution :=
  (partitionTags userId gameId now (buildTagMap (tupleRows userId gameId db)) tags nextId).2.1

/-- `tagsToUpdate` (lines 348–351): ids of resubmitted live rows. -/
def refreshIds (userId : Nat) (gameId : String) (tags : List String)
    (now nextId : Nat) (db : List UserContribution) : List Nat :=
  (partitionTags userId gameId now (buildTagMap (tupleRows userId gameId db)) tags nextId).2.2

/-- `allRelevantContributions` (lines 368–373): resubmitted existing
rows in stored order, then the newly created rows in submission
order. -/
def candidateRows (userId : Nat) (gameId : String) (tags : List String)
    (now nextId : Nat) (db : List UserContribution) : List UserContribution :=
  (tupleRows userId gameId db).filter
      (fun c => (tagsToKeepOf userId gameId tags now nextId db).contains c.tag)
    ++ insertedRows userId gameId tags now nextId db

/-- `finalContributions` (line 380): sort by recency descending, keep
the first three. -/
def finalRows (userId : Nat) (gameId : String) (tags : List String)
    (now nextId : Nat) (db : List UserContribution) : List UserContribution :=
  (sortByTimeDesc (candidateRows userId gameId tags now nextId db)).take 3

/-- `finalTags` (line 381). -/
def keptTags (userId : Nat) (gameId : String) (tags : List String)
    (now nextId : Nat) (db : List UserContribution) : List String :=
  (finalRows userId gameId tags now nextId db).map (fun c => c.tag)

/-- `contributionsToDeleteIds` (lines 383–387): ids of existing rows
whose tag did not survive. -/
def deletedIds (userId : Nat) (gameId : String) (tags : List String)
    (now nextId : Nat) (db : List UserContribution) : List Nat :=
  ((tupleRows userId gameId db).filter
      (fun c => !(keptTags userId gameId tags now nextId db).contains c.tag)).map
    (fun c => c.id)

/-- `contributionsToUpdateIds` (lines 393–398): ids of surviving
resubmitted rows. -/
def updatedIds (userId : Nat) (gameId : String) (tags : List String)
    (now nextId : Nat) (db : List UserContribution) : List Nat :=
  ((tupleRows userId gameId db).filter
      (fun c => (keptTags userId gameId tags now nextId db).contains c.tag
        && (refreshIds userId gameId tags now nextId db).contains c.id)).map
    (fun c => c.id)

/-- `contributionsToInsertFinal` (lines 407–409). -/
def insertedFinal (userId : Nat) (gameId : String) (tags : List String)
    (now nextId : Nat) (db : List UserContribution) : List UserContribution :=
  (insertedRows userId gameId tags now nextId db).filter
    (fun c => (keptTags userId gameId tags now nextId db).contains c.tag)

/-- `processUserTags` (lines 323–415) as a transformer of the
`userContributions` collection: `deleteMany` the non-surviving existing
rows, `updateMany` the surviving resubmitted rows' `updated_at`, then
`insertMany` the surviving new rows. -/
def processUserTags (userId : Nat) (gameId : String) (tags : List String)
    (now nextId : Nat) (db : List UserContribution) : List UserContribution :=
  ((db.filter
      (fun c => !(deletedIds userId gameId tags now nextId db).contains c.id)).map
    (fun c =>
      if (updatedIds userId gameId tags now nextId db).contains c.id then
        { c with updated_at := some now }
      else c))
    ++ insertedFinal userId gameId tags now nextId db

/-- Tag input after JSON parsing: either `payload?.tags` was not an
array (including absent), or it was an array of values, each a string
or something else. -/
inductive JsVal where
  | str (s : String)
  | other
deriving DecidableEq, Repr

/-- The `tags` field of the request payload. -/
inductive TagsField where
  | notArray
  | array (l : List JsVal)
deriving DecidableEq, Repr

/-- JavaScript `String.prototype.trim` (on the whitespace characters
Lean's `Char.isWhitespace` covers). -/
def jsTrim (s : String) : String :=
  String.mk (((s.toList.dropWhile Char.isWhitespace).reverse.dropWhile
    Char.isWhitespace).reverse)

/-- `Array.from(new Set(l))`: drop later duplicates, keeping first
occurrences in order. -/
def dedupKeepFirst : List String → List String :=
  go []
where
  /-- Worker carrying the set of already-seen values. -/
  go (seen : List String) : List String → List String
    | [] => []
    | x :: xs => if seen.contains x then go seen xs else x :: go (x :: seen) xs

/-- The normalization pipeline of `createTags` (lines 246–253): keep
strings, trim each, drop empties, deduplicate keeping first
occurrences. -/
def normalizeInput (l : List JsVal) : List String :=
  dedupKeepFirst
    (((l.filterMap (fun v => match v with | .str s => some s | .other => none)).map
      jsTrim).filter (fun t => !t.isEmpty))

/-- An HTTP-level reply `(status, success flag, message)`. -/
structure Resp where
  status : Nat
  success : Bool
  message : String
deriving DecidableEq, Repr

/-- `mediaTagsCollection.findOne({ mediaSlug, mediaType: VIDEO_GAME })`. -/
def lookupMediaTag (slug : String) (l : List MediaTagRec) : Option MediaTagRec :=
  l.find? (fun r => r.mediaSlug == slug && r.mediaType == .videoGame)

/-- `updateOne(filter, { $set: { tags, updated_at } }, { upsert: true })`:
replace the payload of the first matching record, or append a new
record when none matches. -/
def upsertMediaTag (slug : String) (tags : List String) (now : Nat) :
    List MediaTagRec → List MediaTagRec
  | [] => [{ mediaSlug := slug, mediaType := .videoGame, tags := tags, updated_at := now }]
  | r :: rs =>
    if r.mediaSlug == slug && r.mediaType == .videoGame then
      { mediaSlug := slug, mediaType := .videoGame, tags := tags, updated_at := now } :: rs
    else r :: upsertMediaTag slug tags now rs

/-- `deleteOne(filter)`: remove the first matching record. -/
def deleteOneMediaTag (slug : String) : List MediaTagRec → List MediaTagRec
  | [] => []
  | r :: rs =>
    if r.mediaSlug == slug && r.mediaType == .videoGame then rs
    else r :: deleteOneMediaTag slug rs

/-- The distinct-tag aggregation of `createTags` (lines 282–289):
group the live rows of the media item by tag.  `$group` returns each
distinct tag once; we fix first-occurrence order, which the theorems
only use up to set membership. -/
def aggregateTags (slug : String) (db : List UserContribution) : List String :=
  dedupKeepFirst
    ((db.filter (fun c => c.mediaSlug == slug && c.mediaType == .videoGame)).map
      (fun c => c.tag))

/-- `createTags` (lines 234–307) as a transformer of the two
collections.  `body = none` models a JSON parse failure; `jwtSub` is
the authenticated user id, if any. -/
def createTags (slug : String) (body : Option TagsField) (jwtSub : Option Nat)
    (now nextId : Nat) (db : Db) : Resp × Db :=
  match body with
  | none => ({ status := 400, success := false, message := "Invalid JSON body" }, db)
  | some .notArray =>
    ({ status := 400, success := false, message := "No tags provided" }, db)
  | some (.array tags) =>
    let normalizedTags := normalizeInput tags
    match jwtSub with
    | none =>
      ({ status := 401, success := false, message := "Authentication required" }, db)
    | some userId =>
      if normalizedTags.isEmpty then
        ({ status := 400, success := false, message := "No tags provided" }, db)
      else if containsBadWords normalizedTags then
        ({ status := 400, success := false, message := "Tags contain inappropriate words" }, db)
      else
        let contribs := processUserTags userId slug normalizedTags now nextId db.userContributions
        let aggregatedTags := aggregateTags slug contribs
        let mediaTags' :=
          if 0 < aggregatedTags.length then
            upsertMediaTag slug aggregatedTags now db.mediaTags
          else
            deleteOneMediaTag slug db.mediaTags
        ({ status := 200, success := true, message := "Tags processed successfully" },
         { userContributions := contribs, mediaTags := mediaTags' })

/-- Largest row id in the collection plus one: a fresh `ObjectId`. -/
def freshId (db : Db) : Nat :=
  (db.userContributions.foldl (fun acc c => max acc c.id) 0) + 1

/-- One submission in a request sequence: the parsed body and the
wall-clock time at which it is processed. -/
structure Submission where
  body : Option TagsField
  now : Nat
deriving DecidableEq, Repr

/-- Apply one authenticated submission of user `u` to media `slug`,
drawing fresh ids above every stored id. -/
def submitStep (u : Nat) (slug : String) (db : Db) (s : Submission) : Db :=
  (createTags slug s.body (some u) s.now (freshId db) db).2

/-- Apply a sequence of submissions in order. -/
def submitAll (u : Nat) (slug : String) (subs : List Submission) (db : Db) : Db :=
  subs.foldl (submitStep u slug) db

/-- The empty database. -/
def emptyDb : Db := { userContributions := [], mediaTags := [] }

/-- The rows `processUserTags` builds for a run of brand-new tags
(`tagsToInsert` when no submitted tag is already live): consecutive
fresh ids, `timestamp = updated_at = now`. -/
def freshRows (u : Nat) (slug : String) (now : Nat) :
    List String → Nat → List UserContribution
  | [], _ => []
  | t :: ts, nid =>
    { id := nid, userId := u, mediaSlug := slug, mediaType := .videoGame,
      tag := t, timestamp := now, updated_at := some now } ::
      freshRows u slug now ts (nid + 1)

/-- A 50-entry cache with keys `"0"`, …, `"49"`. -/
def cacheFullExample : Cache :=
  (List.range MAX_CACHE_SIZE).map (fun i => (toString i, ⟨i, 0⟩))

end Kohai

namespace Kohai

/-! ## C4 — bad-content filter classifications -/

/-- C4, counterexample: the claim says `containsBadWords` classifies
`"grape"` as not blocked, but the normalized form `"grape"` contains
the blocked term `"rape"` as a substring, so the filter blocks it. -/
theorem c4_grape_counterexample : ¬ containsBadWords ["grape"] = false := by
  decide

/-- C4, amended: `"r4p3"`, `"RAPE"` and `"r@p3"` are blocked, and so is
`"grape"` — the substring match makes it a false positive, not an
accepted input. -/
theorem c4_blocklist_classifications :
    containsBadWords ["r4p3"] = true ∧ containsBadWords ["RAPE"] = true ∧
    containsBadWords ["r@p3"] = true ∧ containsBadWords ["grape"] = true := by
  exact ⟨by decide, by decide, by decide, by decide⟩

/-! ## C6 — `connectIgdb` failure atomicity -/

/-- C6: `connectIgdb` raises on transport failure, on a non-OK status
and on a missing/empty `access_token`, leaving both stored credential
slots untouched in every such case; only on success does it replace the
token and store the new expiry `now + expires_in * 1000`. -/
theorem c6_connectIgdb_failure_preserves_state (now : Nat) (env : CredEnv) :
    (connectIgdb .transportError now env = (.error "fetch failed", env))
    ∧ (∀ st tok exp, connectIgdb (.response false st tok exp) now env
        = (.error ("HTTP error! Status: " ++ toString st), env))
    ∧ (∀ st tok exp, tokenFalsy tok = true →
        connectIgdb (.response true st tok exp) now env
          = (.error "Failed to get access token from IGDB", env))
    ∧ (∀ st tok exp, tokenFalsy tok = false →
        connectIgdb (.response true st tok exp) now env
          = (.ok (), { accessToken := tok, expiresAt := some (now + exp * 1000) })) := by
  refine ⟨rfl, fun st tok exp => rfl, fun st tok exp h => ?_, fun st tok exp h => ?_⟩
  · simp [connectIgdb, h]
  · simp [connectIgdb, h]

/-- C6 witness: concrete instances of each branch. -/
theorem c6_connectIgdb_failure_preserves_state_witness :
    connectIgdb (.response true 200 (some "") 3600) 1000 ⟨some "old", some 5⟩
      = (.error "Failed to get access token from IGDB", ⟨some "old", some 5⟩)
    ∧ connectIgdb (.response true 200 (some "tok") 3600) 1000 ⟨some "old", some 5⟩
      = (.ok (), ⟨some "tok", some 3601000⟩) := by
  exact ⟨(c6_connectIgdb_failure_preserves_state 1000 ⟨some "old", some 5⟩).2.2.1
            200 (some "") 3600 (by decide),
         (c6_connectIgdb_failure_preserves_state 1000 ⟨some "old", some 5⟩).2.2.2
            200 (some "tok") 3600 (by decide)⟩

/-! ## C7 — cache size bound and FIFO eviction -/

/-- Setting an absent key appends it at the end of the insertion
order. -/
theorem mapSet_of_not_mem (k : String) (v : CacheEntry) :
    ∀ m : Cache, k ∉ cacheKeys m → mapSet k v m = m ++ [(k, v)] := by
  intro m
  induction m with
  | nil => intro _; rfl
  | cons kv rest ih =>
    intro h
    simp only [cacheKeys, List.map_cons, List.mem_cons] at h
    push_neg at h
    simp only [mapSet, if_neg (Ne.symm h.1), List.cons_append]
    rw [ih]
    intro hk
    exact h.2 (by simpa [cacheKeys] using hk)

/-- `Map.set` grows the map by at most one entry. -/
theorem mapSet_length_le (k : String) (v : CacheEntry) :
    ∀ m : Cache, (mapSet k v m).length ≤ m.length + 1 := by
  intro m
  induction m with
  | nil => simp [mapSet]
  | cons kv rest ih =>
    by_cases h : kv.1 = k
    · simp [mapSet, h]
    · simp only [mapSet, if_neg h, List.length_cons]
      omega

/-- One store step keeps the cache within its capacity. -/
theorem cacheStore_length_le (maxSize : Nat) (hpos : 0 < maxSize)
    (k : String) (v : CacheEntry) (m : Cache) (h : m.length ≤ maxSize) :
    (cacheStore maxSize k v m).length ≤ maxSize := by
  unfold cacheStore
  by_cases hc : maxSize ≤ m.length
  · have hm : m.length = maxSize := le_antisymm h hc
    cases m with
    | nil => exfalso; simp only [List.length_nil] at hm; omega
    | cons kv rest =>
      simp only [if_pos hc, deleteOldest]
      have := mapSet_length_le k v rest
      simp only [List.length_cons] at hm
      omega
  · simp only [if_neg hc]
    have := mapSet_length_le k v m
    omega

/-- C7: starting from an empty cache, any sequence of store steps keeps
the cache at or below the 50-entry capacity; and a store of a new key
into a cache at capacity removes exactly the structurally-oldest entry
(the head of the insertion order), keeps every other entry in order,
and appends the new one at the end. -/
theorem c7_cache_bound_and_fifo_eviction :
    (∀ ops : List (String × CacheEntry),
      (ops.foldl (fun m kv => cacheStore MAX_CACHE_SIZE kv.1 kv.2 m) []).length
        ≤ MAX_CACHE_SIZE)
    ∧ ∀ (m : Cache) (k : String) (v : CacheEntry),
        m.length = MAX_CACHE_SIZE → k ∉ cacheKeys m →
        cacheStore MAX_CACHE_SIZE k v m = m.tail ++ [(k, v)] := by
  constructor
  · have general : ∀ (ops : List (String × CacheEntry)) (m : Cache),
        m.length ≤ MAX_CACHE_SIZE →
        (ops.foldl (fun m kv => cacheStore MAX_CACHE_SIZE kv.1 kv.2 m) m).length
          ≤ MAX_CACHE_SIZE := by
      intro ops
      induction ops with
      | nil => intro m h; simpa using h
      | cons kv rest ih =>
        intro m h
        exact ih _ (cacheStore_length_le MAX_CACHE_SIZE (by decide) kv.1 kv.2 m h)
    exact fun ops => general ops [] (by simp [MAX_CACHE_SIZE])
  · intro m k v hlen hmem
    unfold cacheStore
    rw [if_pos (le_of_eq hlen.symm)]
    cases m with
    | nil => exact absurd hlen (by decide)
    | cons kv rest =>
      simp only [deleteOldest, List.tail_cons]
      exact mapSet_of_not_mem k v rest fun hk =>
        hmem (by simp [cacheKeys] at hk ⊢; exact Or.inr hk)

/-! ## C8 — `createTags` rejection paths -/

/-- C8: a non-array `tags` payload and a tag list that normalizes to
empty are both rejected with status 400 and message "No tags provided";
a normalized list containing a blocked tag is rejected with status 400
and message "Tags contain inappropriate words"; in all three cases both
collections are returned unchanged, so no contribution or media-tag
write happens. -/
theorem c8_rejections_atomic (slug : String) (jwtSub : Option Nat)
    (now nextId : Nat) (db : Db) :
    (createTags slug (some .notArray) jwtSub now nextId db
      = ({ status := 400, success := false, message := "No tags provided" }, db))
    ∧ (∀ (l : List JsVal) (u : Nat), jwtSub = some u → normalizeInput l = [] →
        createTags slug (some (.array l)) jwtSub now nextId db
          = ({ status := 400, success := false, message := "No tags provided" }, db))
    ∧ (∀ (l : List JsVal) (u : Nat), jwtSub = some u →
        containsBadWords (normalizeInput l) = true →
        createTags slug (some (.array l)) jwtSub now nextId db
          = ({ status := 400, success := false,
               message := "Tags contain inappropriate words" }, db)) := by
  refine ⟨rfl, ?_, ?_⟩
  · intro l u hjwt hempty
    subst hjwt
    simp [createTags, hempty]
  · intro l u hjwt hbad
    subst hjwt
    have hne : ¬ (normalizeInput l).isEmpty = true := by
      intro h0
      rw [List.isEmpty_iff.mp h0] at hbad
      exact absurd hbad (by decide)
    simp [createTags, hbad, hne]

/-- C8 witness: concrete rejected submissions leave a concrete database
unchanged. -/
theorem c8_rejections_atomic_witness :
    (createTags "g" (some (.array [.other, .str "  "])) (some 1) 5 9 emptyDb
      = ({ status := 400, success := false, message := "No tags provided" }, emptyDb))
    ∧ (createTags "g" (some (.array [.str "r4p3"])) (some 1) 5 9 emptyDb
      = ({ status := 400, success := false,
           message := "Tags contain inappropriate words" }, emptyDb)) := by
  exact ⟨(c8_rejections_atomic "g" (some 1) 5 9 emptyDb).2.1
            [.other, .str "  "] 1 rfl (by decide),
         (c8_rejections_atomic "g" (some 1) 5 9 emptyDb).2.2
            [.str "r4p3"] 1 rfl (by decide)⟩

/-! ## C10 — input normalization -/

/-- Members of the deduplicated list come from the input and avoid the
seen set. -/
theorem dedupKeepFirst_go_mem :
    ∀ (l seen : List String) (x : String),
      x ∈ dedupKeepFirst.go seen l → x ∈ l ∧ x ∉ seen := by
  intro l
  induction l with
  | nil => intro seen x h; exact absurd h (by simp [dedupKeepFirst.go])
  | cons y ys ih =>
    intro seen x h
    by_cases hy : y ∈ seen
    · rcases ih seen x (by simpa [dedupKeepFirst.go, hy] using h) with ⟨h1, h2⟩
      exact ⟨List.mem_cons_of_mem _ h1, h2⟩
    · simp only [dedupKeepFirst.go, hy] at h
      rw [if_neg (by simpa using hy)] at h
      rcases List.mem_cons.mp h with h | h
      · subst h
        exact ⟨List.mem_cons_self _ _, hy⟩
      · rcases ih _ x h with ⟨h1, h2⟩
        refine ⟨List.mem_cons_of_mem _ h1, fun hx => h2 (List.mem_cons_of_mem _ hx)⟩

/-- The deduplicated list has no duplicates. -/
theorem dedupKeepFirst_go_nodup :
    ∀ l seen : List String, (dedupKeepFirst.go seen l).Nodup := by
  intro l
  induction l with
  | nil => intro seen; simp [dedupKeepFirst.go]
  | cons y ys ih =>
    intro seen
    by_cases hy : y ∈ seen
    · simpa [dedupKeepFirst.go, hy] using ih seen
    · simp only [dedupKeepFirst.go]
      rw [if_neg (by simpa using hy)]
      refine List.nodup_cons.mpr ⟨fun hmem => ?_, ih (y :: seen)⟩
      exact (dedupKeepFirst_go_mem ys (y :: seen) y hmem).2 (List.mem_cons_self _ _)

/-- C10: `createTags` depends on the submitted tag array only through
the normalization pipeline (drop non-strings, trim, drop empties,
deduplicate), so any two tag arrays with the same normalization produce
identical responses and identical stored state; and the normalized list
never contains duplicates. -/
theorem c10_normalized_inputs_equal_effects (slug : String) (l1 l2 : List JsVal)
    (jwtSub : Option Nat) (now nextId : Nat) (db : Db)
    (h : normalizeInput l1 = normalizeInput l2) :
    createTags slug (some (.array l1)) jwtSub now nextId db
      = createTags slug (some (.array l2)) jwtSub now nextId db
    ∧ ∀ l : List JsVal, (normalizeInput l).Nodup := by
  constructor
  · simp only [createTags, h]
  · intro l
    exact dedupKeepFirst_go_nodup _ []

/-- C10 witness: a whitespace-padded, duplicated, partly non-string
input behaves exactly like its normalized form. -/
theorem c10_normalized_inputs_equal_effects_witness :
    createTags "g" (some (.array [.str "  a ", .str "a", .other, .str "", .str "b"]))
        (some 1) 5 9 emptyDb
      = createTags "g" (some (.array [.str "a", .str "b"])) (some 1) 5 9 emptyDb := by
  exact (c10_normalized_inputs_equal_effects "g"
    [.str "  a ", .str "a", .other, .str "", .str "b"] [.str "a", .str "b"]
    (some 1) 5 9 emptyDb (by decide)).1

/-- C7 witness: storing a fresh key into the full example cache drops
exactly its oldest entry `("0", …)` and appends the new one. -/
theorem c7_cache_bound_and_fifo_eviction_witness :
    cacheStore MAX_CACHE_SIZE "fresh" ⟨7, 9⟩ cacheFullExample
      = cacheFullExample.tail ++ [("fresh", ⟨7, 9⟩)] := by
  exact c7_cache_bound_and_fifo_eviction.2 cacheFullExample "fresh" ⟨7, 9⟩
    (by decide) (by decide)

/-! ## C9 — stable tiebreak on equal recency -/

/-- Inserting a row whose key is at least every listed key puts it in
front. -/
theorem insertByTime_of_head_le (c : UserContribution) :
    ∀ l : List UserContribution, (∀ d ∈ l, timeOf d ≤ timeOf c) →
      insertByTime c l = c :: l := by
  intro l h
  cases l with
  | nil => rfl
  | cons d ds =>
    have hd : ¬ timeOf c < timeOf d := not_lt.mpr (h d (List.mem_cons_self _ _))
    simp [insertByTime, hd]

/-- Sorting a list that is already weakly descending by recency leaves
it unchanged: rows with equal keys keep their original relative
order (the stable-sort tiebreak). -/
theorem sortByTimeDesc_of_sorted :
    ∀ l : List UserContribution,
      l.Pairwise (fun a b => timeOf b ≤ timeOf a) → sortByTimeDesc l = l := by
  intro l
  induction l with
  | nil => intro _; rfl
  | cons c cs ih =>
    intro h
    rcases List.pairwise_cons.mp h with ⟨hc, hcs⟩
    rw [sortByTimeDesc, ih hcs, insertByTime_of_head_le c cs hc]

/-- With no live contribution for the tuple, every submitted tag goes
to `tagsToInsert`, with consecutive fresh ids. -/
theorem partitionTags_empty_map (u : Nat) (g : String) (now : Nat) :
    ∀ (ts : List String) (nid : Nat),
      partitionTags u g now [] ts nid = (ts, freshRows u g now ts nid, []) := by
  intro ts
  induction ts with
  | nil => intro nid; rfl
  | cons t ts ih =>
    intro nid
    simp [partitionTags, tagMapFind, freshRows, ih]

/-- The inserted rows repeat the submitted tags in order. -/
theorem freshRows_map_tag (u : Nat) (g : String) (now : Nat) :
    ∀ (ts : List String) (nid : Nat),
      (freshRows u g now ts nid).map (fun c => c.tag) = ts := by
  intro ts
  induction ts with
  | nil => intro nid; rfl
  | cons t ts ih => intro nid; simp [freshRows, ih]

/-- Field facts about inserted rows: tag from the submitted list, sort
key `now`, member of the submitting tuple. -/
theorem freshRows_mem (u : Nat) (g : String) (now : Nat) :
    ∀ (ts : List String) (nid : Nat), ∀ c ∈ freshRows u g now ts nid,
      c.tag ∈ ts ∧ timeOf c = now ∧ inTuple u g c = true := by
  intro ts
  induction ts with
  | nil => intro nid c hc; exact absurd hc (by simp [freshRows])
  | cons t ts ih =>
    intro nid c hc
    rcases List.mem_cons.mp hc with h | h
    · subst h
      refine ⟨List.mem_cons_self _ _, rfl, ?_⟩
      simp [inTuple]
    · rcases ih (nid + 1) c h with ⟨h1, h2, h3⟩
      exact ⟨List.mem_cons_of_mem _ h1, h2, h3⟩

/-- Inserted rows all carry the same sort key, so they are already
weakly descending. -/
theorem freshRows_pairwise (u : Nat) (g : String) (now : Nat)
    (ts : List String) (nid : Nat) :
    (freshRows u g now ts nid).Pairwise (fun a b => timeOf b ≤ timeOf a) := by
  refine List.Pairwise.imp_of_mem ?_ (List.pairwise_of_forall (fun a b => True.intro))
  intro a b ha hb _
  rw [(freshRows_mem u g now ts nid a ha).2.1, (freshRows_mem u g now ts nid b hb).2.1]

/-- Truncating the inserted rows is inserting the truncated tags. -/
theorem freshRows_take (u : Nat) (g : String) (now : Nat) :
    ∀ (ts : List String) (k nid : Nat),
      (freshRows u g now ts nid).take k = freshRows u g now (ts.take k) nid := by
  intro ts
  induction ts with
  | nil => intro k nid; simp [freshRows]
  | cons t ts ih =>
    intro k nid
    cases k with
    | zero => rfl
    | succ k => simp [freshRows, ih]

/-- Keeping only the inserted rows whose tag survived truncation is the
same as inserting only the surviving tags. -/
theorem freshRows_filter_take (u : Nat) (g : String) (now : Nat) :
    ∀ (ts : List String) (k nid : Nat), ts.Nodup →
      (freshRows u g now ts nid).filter (fun c => (ts.take k).contains c.tag)
        = freshRows u g now (ts.take k) nid := by
  intro ts
  induction ts with
  | nil => intro k nid _; simp [freshRows]
  | cons t ts ih =>
    intro k nid hnodup
    rcases List.nodup_cons.mp hnodup with ⟨ht, hts⟩
    cases k with
    | zero => simp [freshRows]
    | succ k =>
      simp only [freshRows, List.take_succ_cons, List.filter_cons]
      rw [if_pos (by simp)]
      congr 1
      rw [List.filter_congr (fun c hc => ?_), ih k (nid + 1) hts]
      have htag : c.tag ∈ ts := (freshRows_mem u g now ts (nid + 1) c hc).1
      have : c.tag ≠ t := fun h => ht (h ▸ htag)
      simp [this]

/-- C9: when every candidate shares the same `updatedAt`, the stable
descending sort keeps candidate order, so a user with no live rows who
submits more than three distinct tags keeps exactly the first three in
submission order; and in general a weakly descending candidate list is
left unchanged by the sort (ties keep the earlier candidate first). -/
theorem c9_stable_tiebreak_keeps_submission_order (u : Nat) (slug : String)
    (tags : List String) (now nextId : Nat) (db : List UserContribution)
    (hempty : tupleRows u slug db = [])
    (hnodup : tags.Nodup) :
    ((tupleRows u slug (processUserTags u slug tags now nextId db)).map
        (fun c => c.tag) = tags.take 3)
    ∧ ∀ l : List UserContribution,
        l.Pairwise (fun a b => timeOf b ≤ timeOf a) → sortByTimeDesc l = l := by
  constructor
  · have hins : insertedRows u slug tags now nextId db
        = freshRows u slug now tags nextId := by
      unfold insertedRows
      rw [hempty]
      simp [buildTagMap, partitionTags_empty_map]
    have hkeep : tagsToKeepOf u slug tags now nextId db = tags := by
      unfold tagsToKeepOf
      rw [hempty]
      simp [buildTagMap, partitionTags_empty_map]
    have hcand : candidateRows u slug tags now nextId db
        = freshRows u slug now tags nextId := by
      unfold candidateRows
      rw [hempty, hins]
      simp
    have hfinal : finalRows u slug tags now nextId db
        = freshRows u slug now (tags.take 3) nextId := by
      unfold finalRows
      rw [hcand, sortByTimeDesc_of_sorted _ (freshRows_pairwise u slug now tags nextId),
        freshRows_take]
    have hkept : keptTags u slug tags now nextId db = tags.take 3 := by
      unfold keptTags
      rw [hfinal, freshRows_map_tag]
    have hdel : deletedIds u slug tags now nextId db = [] := by
      unfold deletedIds
      rw [hempty]
      rfl
    have hupd : updatedIds u slug tags now nextId db = [] := by
      unfold updatedIds
      rw [hempty]
      rfl
    have hinsF : insertedFinal u slug tags now nextId db
        = freshRows u slug now (tags.take 3) nextId := by
      unfold insertedFinal
      rw [hins, hkept, freshRows_filter_take u slug now tags 3 nextId hnodup]
    have hproc : processUserTags u slug tags now nextId db
        = db ++ freshRows u slug now (tags.take 3) nextId := by
      unfold processUserTags
      rw [hdel, hupd, hinsF]
      simp
    rw [hproc]
    unfold tupleRows
    rw [List.filter_append]
    have hempty' : List.filter (inTuple u slug) db = [] := hempty
    have hself : (freshRows u slug now (tags.take 3) nextId).filter (inTuple u slug)
        = freshRows u slug now (tags.take 3) nextId := by
      rw [List.filter_eq_self]
      intro c hc
      exact (freshRows_mem u slug now (tags.take 3) nextId c hc).2.2
    rw [hempty', List.nil_append, hself, freshRows_map_tag]
  · exact sortByTimeDesc_of_sorted

/-- C9 witness: with four brand-new tags on an empty store, exactly the
first three submitted survive, in submission order. -/
theorem c9_stable_tiebreak_keeps_submission_order_witness :
    (tupleRows 7 "g" (processUserTags 7 "g" ["w", "x", "y", "z"] 40 100 [])).map
        (fun c => c.tag) = ["w", "x", "y"] := by
  exact (c9_stable_tiebreak_keeps_submission_order 7 "g" ["w", "x", "y", "z"]
    40 100 [] (by decide) (by decide)).1

/-! ## C2 — the persisted aggregate equals the live distinct tag set -/

/-- Deduplication preserves membership. -/
theorem mem_dedupKeepFirst (x : String) :
    ∀ l : List String, x ∈ dedupKeepFirst l ↔ x ∈ l := by
  have forward := fun l => dedupKeepFirst_go_mem l [] x
  have backward : ∀ (l seen : List String), x ∈ l → x ∉ seen →
      x ∈ dedupKeepFirst.go seen l := by
    intro l
    induction l with
    | nil => intro seen h _; exact absurd h (List.not_mem_nil x)
    | cons y ys ih =>
      intro seen h hseen
      by_cases hy : y ∈ seen
      · have hx : x ∈ ys := by
          rcases List.mem_cons.mp h with h | h
          · exact absurd (h ▸ hy) hseen
          · exact h
        simpa [dedupKeepFirst.go, hy] using ih seen hx hseen
      · simp only [dedupKeepFirst.go]
        rw [if_neg (by simpa using hy)]
        by_cases hxy : x = y
        · exact hxy ▸ List.mem_cons_self _ _
        · have hx : x ∈ ys := by
            rcases List.mem_cons.mp h with h | h
            · exact absurd h hxy
            · exact h
          refine List.mem_cons_of_mem _ (ih (y :: seen) hx ?_)
          intro hmem
          rcases List.mem_cons.mp hmem with h | h
          · exact hxy h
          · exact hseen h
  intro l
  exact ⟨fun h => (forward l h).1, fun h => backward l [] h (List.not_mem_nil x)⟩

/-- Looking up after the upsert finds exactly the upserted record. -/
theorem lookupMediaTag_upsert (slug : String) (tags : List String) (now : Nat) :
    ∀ l : List MediaTagRec,
      lookupMediaTag slug (upsertMediaTag slug tags now l)
        = some { mediaSlug := slug, mediaType := .videoGame, tags := tags, updated_at := now } := by
  intro l
  induction l with
  | nil => simp [upsertMediaTag, lookupMediaTag]
  | cons r rs ih =>
    by_cases h : r.mediaSlug == slug && r.mediaType == MediaType.videoGame
    · simp [upsertMediaTag, lookupMediaTag, h]
    · simp only [upsertMediaTag, h, Bool.false_eq_true, if_false]
      simpa [lookupMediaTag, List.find?_cons, h] using ih

/-- With at most one matching record, deleting the first match leaves
no match to find. -/
theorem lookupMediaTag_deleteOne (slug : String) :
    ∀ l : List MediaTagRec,
      (l.filter (fun r => r.mediaSlug == slug && r.mediaType == MediaType.videoGame)).length ≤ 1 →
      lookupMediaTag slug (deleteOneMediaTag slug l) = none := by
  intro l
  induction l with
  | nil => intro _; rfl
  | cons r rs ih =>
    intro hone
    by_cases h : r.mediaSlug == slug && r.mediaType == MediaType.videoGame
    · simp only [deleteOneMediaTag, h, if_true]
      simp only [List.filter_cons, h, if_true, List.length_cons] at hone
      have hnil : rs.filter (fun r => r.mediaSlug == slug && r.mediaType == MediaType.videoGame) = [] :=
        List.length_eq_zero.mp (by omega)
      rw [lookupMediaTag, List.find?_eq_none]
      intro x hx
      have := List.filter_eq_nil_iff.mp hnil x hx
      simpa using this
    · simp only [deleteOneMediaTag, h, Bool.false_eq_true, if_false]
      simp only [List.filter_cons, h, Bool.false_eq_true, if_false] at hone
      simpa [lookupMediaTag, List.find?_cons, h] using ih hone

/-- C2: after a successful `createTags` call, if a `mediaTags` record
for the submitted item exists then its `tags` field contains exactly
the tags of the currently live contribution rows of that item (over all
users), and if no live row remains the record is absent — assuming the
collection held at most one record for the item, as upsert/delete keep
it. -/
theorem c2_aggregate_equals_live_distinct_tags (slug : String)
    (body : Option TagsField) (jwtSub : Option Nat) (now nextId : Nat) (db : Db)
    (hone : (db.mediaTags.filter
        (fun r => r.mediaSlug == slug && r.mediaType == MediaType.videoGame)).length ≤ 1)
    (hsuccess : ((createTags slug body jwtSub now nextId db).1).success = true) :
    (∀ r, lookupMediaTag slug (createTags slug body jwtSub now nextId db).2.mediaTags
        = some r →
      ∀ t, t ∈ r.tags ↔
        t ∈ (((createTags slug body jwtSub now nextId db).2.userContributions.filter
              (fun c => c.mediaSlug == slug && c.mediaType == MediaType.videoGame)).map
            (fun c => c.tag)))
    ∧ ((((createTags slug body jwtSub now nextId db).2.userContributions.filter
          (fun c => c.mediaSlug == slug && c.mediaType == MediaType.videoGame)).map
        (fun c => c.tag)) = [] →
      lookupMediaTag slug (createTags slug body jwtSub now nextId db).2.mediaTags = none) := by
  match body with
  | none => exact absurd hsuccess (by simp [createTags])
  | some .notArray => exact absurd hsuccess (by simp [createTags])
  | some (.array l) =>
    match jwtSub with
    | none => exact absurd hsuccess (by simp [createTags])
    | some u =>
      by_cases hempty : (normalizeInput l).isEmpty
      · exact absurd hsuccess (by simp [createTags, hempty])
      · by_cases hbad : containsBadWords (normalizeInput l) = true
        · exact absurd hsuccess (by simp [createTags, hempty, hbad])
        · have hEq : createTags slug (some (.array l)) (some u) now nextId db
              = ({ status := 200, success := true, message := "Tags processed successfully" },
                 { userContributions :=
                     processUserTags u slug (normalizeInput l) now nextId db.userContributions,
                   mediaTags :=
                     if 0 < (aggregateTags slug
                         (processUserTags u slug (normalizeInput l) now nextId
                           db.userContributions)).length then
                       upsertMediaTag slug
                         (aggregateTags slug
                           (processUserTags u slug (normalizeInput l) now nextId
                             db.userContributions)) now db.mediaTags
                     else deleteOneMediaTag slug db.mediaTags }) := by
            simp [createTags, hempty, hbad]
          rw [hEq]
          set contribs :=
            processUserTags u slug (normalizeInput l) now nextId db.userContributions with hcon
          by_cases hpos : 0 < (aggregateTags slug contribs).length
          · constructor
            · intro r hr t
              rw [if_pos hpos, lookupMediaTag_upsert] at hr
              cases Option.some.inj hr
              exact mem_dedupKeepFirst t _
            · intro hlive
              exfalso
              have : aggregateTags slug contribs = [] := by
                simp only [aggregateTags]
                rw [hlive]
                rfl
              rw [this] at hpos
              exact absurd hpos (by simp)
          · constructor
            · intro r hr
              rw [if_neg hpos, lookupMediaTag_deleteOne slug db.mediaTags hone] at hr
              exact absurd hr (by simp)
            · intro _
              simp only [if_neg hpos]
              exact lookupMediaTag_deleteOne slug db.mediaTags hone

/-! ## C5 — single-flight token refresh -/

/-- Callers that already threw are not affected by later
settlements. -/
theorem foldCallers_threw (pid : Nat) (ok : Bool) :
    ∀ (a : Nat) (s : GuardState),
      foldCallers (stepResume pid ok) s (List.replicate a .threw)
        = (List.replicate a .threw, s) := by
  intro a
  induction a with
  | zero => intro s; rfl
  | succ a ih =>
    intro s
    rw [List.replicate_succ]
    simp only [foldCallers, stepResume]
    rw [ih s]

/-- While a refresh promise is published and the token is invalid,
every arriving caller just awaits that promise. -/
theorem foldCallers_start_waiting (p : Nat) :
    ∀ (m : Nat) (s : GuardState), s.valid = false → s.inflight = some p →
      foldCallers stepStart s (List.replicate m .start)
        = (List.replicate m (.awaitingPrev p), s) := by
  intro m
  induction m with
  | zero => intro s _ _; rfl
  | succ m ih =>
    intro s hv hi
    rw [List.replicate_succ, List.replicate_succ]
    simp [foldCallers, stepStart, hv, hi, ih s hv hi]

/-- After a successful refresh, every caller that awaited it re-checks
the token, finds it valid, and returns `true`. -/
theorem foldCallers_resume_valid (pid : Nat) :
    ∀ (m : Nat) (s : GuardState), s.valid = true →
      foldCallers (stepResume pid true) s (List.replicate m (.awaitingPrev pid))
        = (List.replicate m (.returned true), s) := by
  intro m
  induction m with
  | zero => intro s _; rfl
  | succ m ih =>
    intro s hv
    rw [List.replicate_succ, List.replicate_succ]
    simp only [foldCallers, stepResume, hv, if_pos rfl, Bool.true_and, if_true]
    rw [ih s hv]

/-- Settling promise `pid` does not touch callers awaiting their own
later-created promises. -/
theorem foldCallers_own_untouched (pid : Nat) (ok : Bool) :
    ∀ (m t : Nat) (s : GuardState), pid < t →
      foldCallers (stepResume pid ok) s ((List.range' t m).map CallerPhase.awaitingOwn)
        = ((List.range' t m).map CallerPhase.awaitingOwn, s) := by
  intro m
  induction m with
  | zero => intro t s _; rfl
  | succ m ih =>
    intro t s hlt
    rw [List.range'_succ, List.map_cons]
    simp only [foldCallers, stepResume]
    rw [if_neg (by omega)]
    rw [ih (t + 1) s (by omega)]

/-- Running the per-caller step over a concatenation threads the state
left to right. -/
theorem foldCallers_append (f : GuardState → CallerPhase → CallerPhase × GuardState) :
    ∀ (l1 l2 : List CallerPhase) (s : GuardState),
      foldCallers f s (l1 ++ l2)
        = ((foldCallers f s l1).1 ++ (foldCallers f (foldCallers f s l1).2 l2).1,
           (foldCallers f (foldCallers f s l1).2 l2).2) := by
  intro l1
  induction l1 with
  | nil => intro l2 s; rfl
  | cons c cs ih =>
    intro l2 s
    rcases hfc : f s c with ⟨c1, s1⟩
    simp only [List.cons_append, foldCallers, hfc, List.append_eq]
    rw [ih l2 s1]

/-- After a failed refresh, every caller that awaited it starts its own
new refresh, issuing one more network call each, with promises numbered
consecutively. -/
theorem foldCallers_retry (pid : Nat) :
    ∀ (m : Nat) (v : Bool) (infl : Option Nat) (np st nc : Nat),
      foldCallers (stepResume pid false) ⟨v, infl, np, st, nc⟩
          (List.replicate m (.awaitingPrev pid))
        = ((List.range' np m).map CallerPhase.awaitingOwn,
           ⟨v, if m = 0 then infl else some (np + m - 1), np + m, st, nc + m⟩) := by
  intro m
  induction m with
  | zero => intro v infl np st nc; simp [foldCallers]
  | succ m ih =>
    intro v infl np st nc
    rw [List.replicate_succ, List.range'_succ, List.map_cons]
    simp [foldCallers, stepResume, startRefresh, ih v (some np) (np + 1) st (nc + 1)]
    exact ⟨by omega, by omega⟩

/-- Draining rounds: with only failing refreshes outstanding, each
round turns one `awaitingOwn` caller into a thrower, with no further
network call. -/
theorem runRounds_drain :
    ∀ (m fuel a : Nat) (infl : Option Nat) (t nc : Nat), m ≤ fuel →
      runRounds (fun _ => false) fuel ⟨false, infl, t + m, t, nc⟩
          (List.replicate a .threw ++ (List.range' t m).map CallerPhase.awaitingOwn)
        = (⟨false, if m = 0 then infl else none, t + m, t + m, nc⟩,
           List.replicate (a + m) .threw) := by
  intro m
  induction m with
  | zero =>
    intro fuel a infl t nc _
    cases fuel with
    | zero => simp [runRounds]
    | succ fuel =>
      simp only [runRounds]
      rw [if_neg (by omega)]
      simp
  | succ m ih =>
    intro fuel a infl t nc hfuel
    cases fuel with
    | zero => omega
    | succ fuel =>
      have hhead : stepResume t false
          ⟨false, none, t + (m + 1), t + 1, nc⟩ (.awaitingOwn t)
          = (.threw, ⟨false, none, t + (m + 1), t + 1, nc⟩) := by
        simp [stepResume]
      have hround : settleRound (fun _ => false)
          ⟨false, infl, t + (m + 1), t, nc⟩
          (List.replicate a .threw ++ (List.range' t (m + 1)).map CallerPhase.awaitingOwn)
          = (⟨false, none, t + (m + 1), t + 1, nc⟩,
             List.replicate (a + 1) .threw ++
               (List.range' (t + 1) m).map CallerPhase.awaitingOwn) := by
        simp only [settleRound, Bool.or_false]
        rw [List.range'_succ, List.map_cons]
        rw [foldCallers_append]
        rw [foldCallers_threw]
        simp only [foldCallers, hhead]
        rw [foldCallers_own_untouched t false m (t + 1) _ (by omega)]
        rw [List.replicate_succ' a]
        simp
      simp only [runRounds]
      rw [if_pos (show t < t + (m + 1) by omega)]
      rw [hround]
      rw [show t + (m + 1) = t + 1 + m from by omega]
      rw [ih fuel (a + 1) none (t + 1) nc (by omega)]
      refine Prod.ext ?_ ?_
      · simp
      · simp only
        rw [show a + 1 + m = a + (m + 1) from by omega]

/-- One unfolding step of the settle loop. -/
theorem runRounds_succ (o : Nat → Bool) (fuel : Nat) (s : GuardState)
    (cs : List CallerPhase) :
    runRounds o (fuel + 1) s cs
      = if s.settled < s.nextPromise then
          runRounds o fuel (settleRound o s cs).1 (settleRound o s cs).2
        else (s, cs) := rfl

/-- The start phase: the first caller creates promise 0 and issues the
single network call; the other `m` callers find the published promise
and await it. -/
theorem ensureRun_startPhase (m : Nat) (f : Nat → Bool) :
    ensureRun (m + 1) f
      = runRounds f (m + 2) ⟨false, some 0, 1, 0, 1⟩
          (.awaitingOwn 0 :: List.replicate m (.awaitingPrev 0)) := by
  unfold ensureRun
  rw [List.replicate_succ]
  simp [foldCallers, stepStart, initGuard, startRefresh,
    foldCallers_start_waiting 0 m ⟨false, some 0, 1, 0, 1⟩ rfl rfl]

/-- C5, amended behaviour, success half and failure half: if the single
refresh succeeds, exactly one network call is made and all `n` callers
return `true`; if refreshes fail, the first caller's rejection
propagates and every other caller retries with its own refresh, so `n`
network calls are made and all `n` callers throw. -/
theorem c5_single_flight_success_retry_on_failure (n : Nat) (h : 1 ≤ n) :
    ((ensureRun n (fun _ => true)).1.networkCalls = 1
      ∧ (ensureRun n (fun _ => true)).2 = List.replicate n (.returned true))
    ∧ ((ensureRun n (fun _ => false)).1.networkCalls = n
      ∧ (ensureRun n (fun _ => false)).2 = List.replicate n .threw) := by
  obtain ⟨m, rfl⟩ : ∃ m, n = m + 1 := ⟨n - 1, by omega⟩
  constructor
  · rw [ensureRun_startPhase m (fun _ => true)]
    have hhead : stepResume 0 true ⟨true, none, 1, 1, 1⟩ (.awaitingOwn 0)
        = (.returned true, ⟨true, none, 1, 1, 1⟩) := by
      simp [stepResume]
    have hround : settleRound (fun _ => true) ⟨false, some 0, 1, 0, 1⟩
        (.awaitingOwn 0 :: List.replicate m (.awaitingPrev 0))
        = (⟨true, none, 1, 1, 1⟩, .returned true :: List.replicate m (.returned true)) := by
      simp [settleRound, foldCallers, hhead,
        foldCallers_resume_valid 0 m ⟨true, none, 1, 1, 1⟩ rfl]
    have hrun : runRounds (fun _ => true) (m + 2) ⟨false, some 0, 1, 0, 1⟩
        (.awaitingOwn 0 :: List.replicate m (.awaitingPrev 0))
        = (⟨true, none, 1, 1, 1⟩, List.replicate (m + 1) (.returned true)) := by
      rw [show m + 2 = (m + 1) + 1 from rfl, runRounds_succ,
        if_pos (show (0 : Nat) < 1 by decide), hround]
      show runRounds (fun _ => true) (m + 1) ⟨true, none, 1, 1, 1⟩
          (.returned true :: List.replicate m (.returned true)) = _
      rw [runRounds_succ, if_neg (show ¬ (1 : Nat) < 1 by decide), List.replicate_succ]
    rw [hrun]
    exact ⟨rfl, rfl⟩
  · rw [ensureRun_startPhase m (fun _ => false)]
    have hhead : stepResume 0 false ⟨false, none, 1, 1, 1⟩ (.awaitingOwn 0)
        = (.threw, ⟨false, none, 1, 1, 1⟩) := by
      simp [stepResume]
    have hround : settleRound (fun _ => false) ⟨false, some 0, 1, 0, 1⟩
        (.awaitingOwn 0 :: List.replicate m (.awaitingPrev 0))
        = (⟨false, if m = 0 then none else some (1 + m - 1), 1 + m, 1, 1 + m⟩,
           .threw :: (List.range' 1 m).map CallerPhase.awaitingOwn) := by
      simp [settleRound, foldCallers, hhead, foldCallers_retry 0 m false none 1 1 1]
    have hrun : runRounds (fun _ => false) (m + 2) ⟨false, some 0, 1, 0, 1⟩
        (.awaitingOwn 0 :: List.replicate m (.awaitingPrev 0))
        = (⟨false, none, 1 + m, 1 + m, 1 + m⟩, List.replicate (1 + m) .threw) := by
      rw [show m + 2 = (m + 1) + 1 from rfl, runRounds_succ,
        if_pos (show (0 : Nat) < 1 by decide), hround]
      show runRounds (fun _ => false) (m + 1)
          ⟨false, if m = 0 then none else some (1 + m - 1), 1 + m, 1, 1 + m⟩
          (.threw :: (List.range' 1 m).map CallerPhase.awaitingOwn) = _
      rw [show (CallerPhase.threw :: (List.range' 1 m).map CallerPhase.awaitingOwn)
            = List.replicate 1 CallerPhase.threw
                ++ (List.range' 1 m).map CallerPhase.awaitingOwn from rfl]
      rw [runRounds_drain m (m + 1) 1 (if m = 0 then none else some (1 + m - 1)) 1
        (1 + m) (by omega)]
      cases m <;> simp
    rw [hrun]
    constructor
    · simp only
      omega
    · rw [show 1 + m = m + 1 by omega]

/-- C5 witness for the amended statement at `n = 3`. -/
theorem c5_single_flight_success_retry_on_failure_witness :
    (((ensureRun 3 (fun _ => true)).1.networkCalls = 1
      ∧ (ensureRun 3 (fun _ => true)).2 = List.replicate 3 (.returned true))
    ∧ ((ensureRun 3 (fun _ => false)).1.networkCalls = 3
      ∧ (ensureRun 3 (fun _ => false)).2 = List.replicate 3 .threw)) := by
  exact c5_single_flight_success_retry_on_failure 3 (by omega)

/-- C5 counterexample: two concurrent calls during which the credential
exchange fails produce two upstream network calls, not one — each
caller that awaited the failed refresh starts its own retry, so the
callers do not all observe one shared failure of a single exchange. -/
theorem c5_counterexample_two_calls_on_failure :
    (ensureRun 2 (fun _ => false)).1.networkCalls = 2
    ∧ ¬ (ensureRun 2 (fun _ => false)).1.networkCalls = 1 := by
  exact ⟨by decide, by decide⟩

/-! ## C1 and C3 — contribution-store reconciliation facts -/

/-- Inserting a row into the sorted prefix keeps the same rows. -/
theorem insertByTime_perm (c : UserContribution) :
    ∀ l : List UserContribution, List.Perm (insertByTime c l) (c :: l) := by
  intro l
  induction l with
  | nil => exact List.Perm.refl _
  | cons d ds ih =>
    by_cases h : timeOf c < timeOf d
    · simp only [insertByTime, if_pos h]
      exact (ih.cons d).trans (List.Perm.swap c d ds)
    · simp only [insertByTime, if_neg h]
      exact List.Perm.refl _

/-- The stable sort is a permutation of its input. -/
theorem sortByTimeDesc_perm :
    ∀ l : List UserContribution, List.Perm (sortByTimeDesc l) l := by
  intro l
  induction l with
  | nil => exact List.Perm.refl _
  | cons c cs ih =>
    exact (insertByTime_perm c (sortByTimeDesc cs)).trans (ih.cons c)

/-- Insertion preserves weakly descending order. -/
theorem insertByTime_pairwise (c : UserContribution) :
    ∀ l : List UserContribution,
      l.Pairwise (fun a b => timeOf b ≤ timeOf a) →
      (insertByTime c l).Pairwise (fun a b => timeOf b ≤ timeOf a) := by
  intro l
  induction l with
  | nil => intro _; simp [insertByTime]
  | cons d ds ih =>
    intro h
    rcases List.pairwise_cons.mp h with ⟨hd, hds⟩
    by_cases hlt : timeOf c < timeOf d
    · simp only [insertByTime, if_pos hlt]
      refine List.pairwise_cons.mpr ⟨?_, ih hds⟩
      intro x hx
      have hx' : x ∈ c :: ds := (insertByTime_perm c ds).mem_iff.mp hx
      rcases List.mem_cons.mp hx' with hx1 | hx1
      · exact hx1 ▸ le_of_lt hlt
      · exact hd x hx1
    · simp only [insertByTime, if_neg hlt]
      refine List.pairwise_cons.mpr ⟨?_, h⟩
      intro x hx
      rcases List.mem_cons.mp hx with hx | hx
      · exact hx ▸ not_lt.mp hlt
      · exact le_trans (hd x hx) (not_lt.mp hlt)

/-- The sorted list is weakly descending by recency. -/
theorem sortByTimeDesc_pairwise :
    ∀ l : List UserContribution,
      (sortByTimeDesc l).Pairwise (fun a b => timeOf b ≤ timeOf a) := by
  intro l
  induction l with
  | nil => simp [sortByTimeDesc]
  | cons c cs ih => exact insertByTime_pairwise c (sortByTimeDesc cs) ih

/-- The tag map misses a key exactly when no entry carries it. -/
theorem tagMapFind_eq_none_iff (m : List (String × UserContribution)) (t : String) :
    tagMapFind m t = none ↔ t ∉ m.map Prod.fst := by
  unfold tagMapFind
  cases hf : m.find? (fun kv => kv.1 = t) with
  | some kv =>
    refine iff_of_false (by simp) (fun hmem => ?_)
    have hp := List.find?_some hf
    have hkv : kv.1 = t := of_decide_eq_true hp
    exact hmem (List.mem_map.mpr ⟨kv, List.mem_of_find?_eq_some hf, hkv⟩)
  | none =>
    refine iff_of_true rfl (fun hmem => ?_)
    rcases List.mem_map.mp hmem with ⟨kv, hkvm, hkv⟩
    have := List.find?_eq_none.mp hf kv hkvm
    simp [hkv] at this

/-- Keys after a `Map.set`. -/
theorem mem_keys_tagMapSet (c : UserContribution) (k : String) :
    ∀ m : List (String × UserContribution),
      k ∈ (tagMapSet c m).map Prod.fst ↔ k = c.tag ∨ k ∈ m.map Prod.fst := by
  intro m
  induction m with
  | nil => simp [tagMapSet]
  | cons kv rest ih =>
    by_cases h : kv.1 = c.tag
    · simp only [tagMapSet, if_pos h, List.map_cons, List.mem_cons]
      rw [h]
      tauto
    · simp only [tagMapSet, if_neg h, List.map_cons, List.mem_cons, ih]
      tauto

/-- The keys of the built tag map are exactly the tags of the rows it
was built from. -/
theorem mem_keys_buildTagMap (k : String) (l : List UserContribution) :
    k ∈ (buildTagMap l).map Prod.fst ↔ k ∈ l.map (fun c => c.tag) := by
  have general : ∀ (l : List UserContribution) (m : List (String × UserContribution)),
      k ∈ ((l.foldl (fun m c => tagMapSet c m) m).map Prod.fst)
        ↔ k ∈ m.map Prod.fst ∨ k ∈ l.map (fun c => c.tag) := by
    intro l
    induction l with
    | nil => intro m; simp
    | cons c cs ih =>
      intro m
      simp only [List.foldl_cons, ih, mem_keys_tagMapSet, List.map_cons, List.mem_cons]
      tauto
  simpa using general l []

/-- Erasing one key keeps every other present key. -/
theorem mem_keys_tagMapErase (t k : String) (hne : k ≠ t) :
    ∀ m : List (String × UserContribution),
      k ∈ m.map Prod.fst → k ∈ (tagMapErase m t).map Prod.fst := by
  intro m
  induction m with
  | nil => intro h; exact absurd h (by simp)
  | cons kv rest ih =>
    intro h
    rw [List.map_cons] at h
    by_cases hkv : kv.1 = t
    · simp only [tagMapErase, if_pos hkv]
      rcases List.mem_cons.mp h with h1 | h1
      · exact absurd (h1.trans hkv) hne
      · exact h1
    · simp only [tagMapErase, if_neg hkv, List.map_cons, List.mem_cons]
      rcases List.mem_cons.mp h with h1 | h1
      · exact Or.inl h1
      · exact Or.inr (ih h1)

/-- `tagsToKeep` is the full submitted tag list, in order. -/
theorem partitionTags_keep (u : Nat) (g : String) (now : Nat) :
    ∀ (ts : List String) (m : List (String × UserContribution)) (nid : Nat),
      (partitionTags u g now m ts nid).1 = ts := by
  intro ts
  induction ts with
  | nil => intro m nid; rfl
  | cons t ts ih =>
    intro m nid
    cases hf : tagMapFind m t with
    | some uc => simp [partitionTags, hf, ih]
    | none => simp [partitionTags, hf, ih]

/-- Field facts about the rows built for new tags. -/
theorem partitionTags_ins_facts (u : Nat) (g : String) (now : Nat) :
    ∀ (ts : List String) (m : List (String × UserContribution)) (nid : Nat),
      ∀ c ∈ (partitionTags u g now m ts nid).2.1,
        c.userId = u ∧ c.mediaSlug = g ∧ c.mediaType = .videoGame
          ∧ c.updated_at = some now ∧ c.tag ∈ ts ∧ nid ≤ c.id := by
  intro ts
  induction ts with
  | nil => intro m nid c hc; exact absurd hc (by simp [partitionTags])
  | cons t ts ih =>
    intro m nid c hc
    cases hf : tagMapFind m t with
    | some uc =>
      simp only [partitionTags, hf] at hc
      rcases ih (tagMapErase m t) nid c hc with ⟨h1, h2, h3, h4, h5, h6⟩
      exact ⟨h1, h2, h3, h4, List.mem_cons_of_mem _ h5, h6⟩
    | none =>
      simp only [partitionTags, hf] at hc
      rcases List.mem_cons.mp hc with h | h
      · subst h
        exact ⟨rfl, rfl, rfl, rfl, List.mem_cons_self _ _, le_refl _⟩
      · rcases ih m (nid + 1) c h with ⟨h1, h2, h3, h4, h5, h6⟩
        exact ⟨h1, h2, h3, h4, List.mem_cons_of_mem _ h5, by omega⟩

/-- The ids of the newly built rows are distinct. -/
theorem partitionTags_ins_ids_nodup (u : Nat) (g : String) (now : Nat) :
    ∀ (ts : List String) (m : List (String × UserContribution)) (nid : Nat),
      ((partitionTags u g now m ts nid).2.1.map (fun c => c.id)).Nodup := by
  intro ts
  induction ts with
  | nil => intro m nid; simp [partitionTags]
  | cons t ts ih =>
    intro m nid
    cases hf : tagMapFind m t with
    | some uc => simp only [partitionTags, hf]; exact ih (tagMapErase m t) nid
    | none =>
      simp only [partitionTags, hf, List.map_cons]
      refine List.nodup_cons.mpr ⟨fun hmem => ?_, ih m (nid + 1)⟩
      rcases List.mem_map.mp hmem with ⟨c, hc, hid⟩
      have := (partitionTags_ins_facts u g now ts m (nid + 1) c hc).2.2.2.2.2
      omega

/-- With distinct submitted tags, the new rows carry distinct tags. -/
theorem partitionTags_ins_tags_nodup (u : Nat) (g : String) (now : Nat) :
    ∀ (ts : List String) (m : List (String × UserContribution)) (nid : Nat),
      ts.Nodup → ((partitionTags u g now m ts nid).2.1.map (fun c => c.tag)).Nodup := by
  intro ts
  induction ts with
  | nil => intro m nid _; simp [partitionTags]
  | cons t ts ih =>
    intro m nid hnodup
    rcases List.nodup_cons.mp hnodup with ⟨ht, hts⟩
    cases hf : tagMapFind m t with
    | some uc => simp only [partitionTags, hf]; exact ih (tagMapErase m t) nid hts
    | none =>
      simp only [partitionTags, hf, List.map_cons]
      refine List.nodup_cons.mpr ⟨fun hmem => ?_, ih m (nid + 1) hts⟩
      rcases List.mem_map.mp hmem with ⟨c, hc, htag⟩
      exact ht (htag ▸ (partitionTags_ins_facts u g now ts m (nid + 1) c hc).2.2.2.2.1)

/-- With distinct submitted tags, every newly built row carries a tag
that was not a key of the live-row map. -/
theorem partitionTags_ins_tags_fresh (u : Nat) (g : String) (now : Nat) :
    ∀ (ts : List String) (m : List (String × UserContribution)) (nid : Nat),
      ts.Nodup → ∀ c ∈ (partitionTags u g now m ts nid).2.1,
        c.tag ∉ m.map Prod.fst := by
  intro ts
  induction ts with
  | nil => intro m nid _ c hc; exact absurd hc (by simp [partitionTags])
  | cons t ts ih =>
    intro m nid hnodup c hc
    rcases List.nodup_cons.mp hnodup with ⟨ht, hts⟩
    cases hf : tagMapFind m t with
    | some uc =>
      simp only [partitionTags, hf] at hc
      intro hmem
      have hne : c.tag ≠ t := by
        intro h
        exact ht (h ▸ (partitionTags_ins_facts u g now ts (tagMapErase m t) nid c hc).2.2.2.2.1)
      exact ih (tagMapErase m t) nid hts c hc (mem_keys_tagMapErase t c.tag hne m hmem)
    | none =>
      simp only [partitionTags, hf] at hc
      rcases List.mem_cons.mp hc with h | h
      · subst h
        exact (tagMapFind_eq_none_iff m _).mp hf
      · exact ih m (nid + 1) hts c h

/-- The timestamp refresh leaves the tuple key fields alone. -/
theorem inTuple_update (u : Nat) (g : String) (now : Nat) (ids : List Nat)
    (c : UserContribution) :
    inTuple u g (if ids.contains c.id then { c with updated_at := some now } else c)
      = inTuple u g c := by
  split <;> rfl

/-- The timestamp refresh leaves the tag alone. -/
theorem tag_update (now : Nat) (ids : List Nat) (c : UserContribution) :
    (if ids.contains c.id then { c with updated_at := some now } else c).tag
      = c.tag := by
  split <;> rfl

/-- The timestamp refresh leaves the id alone. -/
theorem id_update (now : Nat) (ids : List Nat) (c : UserContribution) :
    (if ids.contains c.id then { c with updated_at := some now } else c).id
      = c.id := by
  split <;> rfl

/-- With globally distinct ids, `deleteMany` hits a tuple row exactly
when its tag did not survive. -/
theorem mem_deletedIds_iff (u : Nat) (g : String) (ts : List String)
    (now nid : Nat) (db : List UserContribution)
    (hids : (db.map (fun c => c.id)).Nodup)
    (c : UserContribution) (hc : c ∈ tupleRows u g db) :
    c.id ∈ deletedIds u g ts now nid db
      ↔ ¬ c.tag ∈ keptTags u g ts now nid db := by
  constructor
  · intro h hk
    rcases List.mem_map.mp h with ⟨d, hdf, hid⟩
    have hdt : d ∈ tupleRows u g db := List.mem_of_mem_filter hdf
    have hcd : c = d :=
      List.inj_on_of_nodup_map hids (List.mem_of_mem_filter hc)
        (List.mem_of_mem_filter hdt) hid.symm
    have hcond := List.of_mem_filter hdf
    rw [← hcd] at hcond
    simp [hk] at hcond
  · intro hk
    refine List.mem_map.mpr ⟨c, List.mem_filter.mpr ⟨hc, ?_⟩, rfl⟩
    simp [hk]

/-- The reconciliation step, restricted to the caller's tuple: keep the
existing rows whose tag survived (refreshing their timestamps), then
append the surviving new rows. -/
theorem tupleRows_processUserTags (u : Nat) (g : String) (ts : List String)
    (now nid : Nat) (db : List UserContribution)
    (hids : (db.map (fun c => c.id)).Nodup) :
    tupleRows u g (processUserTags u g ts now nid db)
      = ((tupleRows u g db).filter
            (fun c => (keptTags u g ts now nid db).contains c.tag)).map
          (fun c => if (updatedIds u g ts now nid db).contains c.id
                    then { c with updated_at := some now } else c)
        ++ insertedFinal u g ts now nid db := by
  unfold processUserTags
  rw [tupleRows, List.filter_append]
  congr 1
  · rw [List.filter_map]
    have h1 : List.filter
          ((inTuple u g) ∘ (fun c => if (updatedIds u g ts now nid db).contains c.id
              then { c with updated_at := some now } else c))
          (db.filter (fun c => !(deletedIds u g ts now nid db).contains c.id))
        = List.filter (inTuple u g)
            (db.filter (fun c => !(deletedIds u g ts now nid db).contains c.id)) :=
      List.filter_congr (fun c _ => by
        rw [Function.comp_apply, inTuple_update])
    rw [h1, List.filter_filter]
    have h2 : List.filter
          (fun a => inTuple u g a && !(deletedIds u g ts now nid db).contains a.id) db
        = List.filter
            (fun a => (!(deletedIds u g ts now nid db).contains a.id) && inTuple u g a) db :=
      List.filter_congr (fun c _ => Bool.and_comm _ _)
    rw [h2, ← List.filter_filter]
    have h3 : List.filter (fun c => !(deletedIds u g ts now nid db).contains c.id)
          (List.filter (inTuple u g) db)
        = List.filter (fun c => (keptTags u g ts now nid db).contains c.tag)
            (List.filter (inTuple u g) db) := by
      refine List.filter_congr (fun c hc => ?_)
      by_cases hk : c.tag ∈ keptTags u g ts now nid db
      · have hdel : ¬ c.id ∈ deletedIds u g ts now nid db :=
          fun h => (mem_deletedIds_iff u g ts now nid db hids c hc).mp h hk
        simp [hk, hdel]
      · have hdel : c.id ∈ deletedIds u g ts now nid db :=
          (mem_deletedIds_iff u g ts now nid db hids c hc).mpr hk
        simp [hk, hdel]
    rw [h3]
    rfl
  · rw [List.filter_eq_self]
    intro c hc
    have hins : c ∈ insertedRows u g ts now nid db := List.mem_of_mem_filter hc
    rcases partitionTags_ins_facts u g now ts _ nid c hins with ⟨h1, h2, h3, _, _, _⟩
    simp [inTuple, h1, h2, h3]

/-- Reconciliation invariants: distinct ids survive, the tuple's tags
stay distinct and are exactly the surviving tags, and the tuple keeps at
most three rows. -/
theorem processUserTags_facts (u : Nat) (g : String) (ts : List String)
    (now nid : Nat) (db : List UserContribution)
    (hids : (db.map (fun c => c.id)).Nodup)
    (hfresh : ∀ c ∈ db, c.id < nid)
    (hts : ts.Nodup)
    (hex : ((tupleRows u g db).map (fun c => c.tag)).Nodup) :
    ((processUserTags u g ts now nid db).map (fun c => c.id)).Nodup
    ∧ ((tupleRows u g (processUserTags u g ts now nid db)).map (fun c => c.tag)).Nodup
    ∧ (∀ t, t ∈ (tupleRows u g (processUserTags u g ts now nid db)).map (fun c => c.tag)
        ↔ t ∈ keptTags u g ts now nid db)
    ∧ (tupleRows u g (processUserTags u g ts now nid db)).length ≤ 3 := by
  have hstruct := tupleRows_processUserTags u g ts now nid db hids
  have hinsPart : ∀ c ∈ insertedFinal u g ts now nid db,
      c ∈ insertedRows u g ts now nid db := fun c hc => List.mem_of_mem_filter hc
  have hmapPart1 : ∀ (l : List UserContribution),
      (l.map (fun c => if (updatedIds u g ts now nid db).contains c.id
          then { c with updated_at := some now } else c)).map (fun c => c.tag)
        = l.map (fun c => c.tag) := by
    intro l
    rw [List.map_map]
    exact List.map_congr_left (fun c _ => tag_update now _ c)
  have hmapPart1id : ∀ (l : List UserContribution),
      (l.map (fun c => if (updatedIds u g ts now nid db).contains c.id
          then { c with updated_at := some now } else c)).map (fun c => c.id)
        = l.map (fun c => c.id) := by
    intro l
    rw [List.map_map]
    exact List.map_congr_left (fun c _ => id_update now _ c)
  have hinsTagsFresh : ∀ c ∈ insertedRows u g ts now nid db,
      c.tag ∉ (tupleRows u g db).map (fun c => c.tag) := by
    intro c hc hmem
    have := partitionTags_ins_tags_fresh u g now ts _ nid hts c hc
    exact this ((mem_keys_buildTagMap c.tag (tupleRows u g db)).mpr hmem)
  -- the tag list of the post-state tuple
  have htags : (tupleRows u g (processUserTags u g ts now nid db)).map (fun c => c.tag)
      = ((tupleRows u g db).filter
            (fun c => (keptTags u g ts now nid db).contains c.tag)).map (fun c => c.tag)
        ++ (insertedFinal u g ts now nid db).map (fun c => c.tag) := by
    rw [hstruct, List.map_append, hmapPart1]
  have hkeptNodup : ((tupleRows u g (processUserTags u g ts now nid db)).map
      (fun c => c.tag)).Nodup := by
    rw [htags]
    rw [List.nodup_append]
    refine ⟨?_, ?_, ?_⟩
    · exact List.Nodup.sublist (List.Sublist.map _ (List.filter_sublist _)) hex
    · exact List.Nodup.sublist
        (List.Sublist.map _ (List.filter_sublist _))
        (partitionTags_ins_tags_nodup u g now ts _ nid hts)
    · intro t ht1 ht2
      rcases List.mem_map.mp ht2 with ⟨c, hc, htag⟩
      refine hinsTagsFresh c (hinsPart c hc) ?_
      rw [htag]
      rcases List.mem_map.mp ht1 with ⟨d, hd, hdt⟩
      exact hdt ▸ List.mem_map_of_mem _ (List.mem_of_mem_filter hd)
  have hiff : ∀ t, t ∈ (tupleRows u g (processUserTags u g ts now nid db)).map
        (fun c => c.tag)
      ↔ t ∈ keptTags u g ts now nid db := by
    intro t
    rw [htags]
    constructor
    · intro h
      rcases List.mem_append.mp h with h | h
      · rcases List.mem_map.mp h with ⟨c, hc, htag⟩
        have := List.of_mem_filter hc
        rw [← htag]
        simpa using this
      · rcases List.mem_map.mp h with ⟨c, hc, htag⟩
        have := List.of_mem_filter hc
        rw [← htag]
        simpa using this
    · intro h
      rcases List.mem_map.mp h with ⟨c, hcf, htag⟩
      have hcand : c ∈ candidateRows u g ts now nid db :=
        (sortByTimeDesc_perm _).mem_iff.mp
          (List.take_subset 3 _ hcf)
      have hck : c.tag ∈ keptTags u g ts now nid db :=
        htag ▸ h
      rcases List.mem_append.mp hcand with hc | hc
      · refine List.mem_append.mpr (Or.inl ?_)
        rw [← htag]
        have hct : c ∈ tupleRows u g db := List.mem_of_mem_filter hc
        refine List.mem_map.mpr ⟨c, List.mem_filter.mpr ⟨hct, by simpa using hck⟩, rfl⟩
      · refine List.mem_append.mpr (Or.inr ?_)
        rw [← htag]
        exact List.mem_map.mpr
          ⟨c, List.mem_filter.mpr ⟨hc, by simpa using hck⟩, rfl⟩
  refine ⟨?_, hkeptNodup, hiff, ?_⟩
  · unfold processUserTags
    rw [List.map_append, List.nodup_append]
    refine ⟨?_, ?_, ?_⟩
    · rw [hmapPart1id]
      exact List.Nodup.sublist (List.Sublist.map _ (List.filter_sublist _)) hids
    · exact List.Nodup.sublist
        (List.Sublist.map _ (List.filter_sublist _))
        (partitionTags_ins_ids_nodup u g now ts _ nid)
    · intro x hx1 hx2
      rw [hmapPart1id] at hx1
      rcases List.mem_map.mp hx1 with ⟨c, hc, hcid⟩
      rcases List.mem_map.mp hx2 with ⟨d, hd, hdid⟩
      have h1 : c.id < nid := hfresh c (List.mem_of_mem_filter hc)
      have h2 : nid ≤ d.id :=
        (partitionTags_ins_facts u g now ts _ nid d (hinsPart d hd)).2.2.2.2.2
      omega
  · have hsub : (tupleRows u g (processUserTags u g ts now nid db)).map
        (fun c => c.tag) ⊆ keptTags u g ts now nid db :=
      fun t ht => (hiff t).mp ht
    have hlen : ((tupleRows u g (processUserTags u g ts now nid db)).map
          (fun c => c.tag)).length ≤ (keptTags u g ts now nid db).length :=
      (List.subperm_of_subset hkeptNodup hsub).length_le
    have hkl : (keptTags u g ts now nid db).length ≤ 3 := by
      unfold keptTags finalRows
      rw [List.length_map]
      exact List.length_take_le 3 _
    rw [List.length_map] at hlen
    omega

/-- Every stored id is below the next fresh id. -/
theorem freshId_lt (db : Db) : ∀ c ∈ db.userContributions, c.id < freshId db := by
  have general : ∀ (l : List UserContribution) (a : Nat),
      a ≤ l.foldl (fun acc c => max acc c.id) a
      ∧ ∀ c ∈ l, c.id ≤ l.foldl (fun acc c => max acc c.id) a := by
    intro l
    induction l with
    | nil => intro a; exact ⟨le_refl a, by simp⟩
    | cons c cs ih =>
      intro a
      rcases ih (max a c.id) with ⟨h1, h2⟩
      simp only [List.foldl_cons]
      refine ⟨le_trans (le_max_left _ _) h1, ?_⟩
      intro d hd
      rcases List.mem_cons.mp hd with h | h
      · subst h
        exact le_trans (le_max_right a d.id) h1
      · exact h2 d h
  intro c hc
  have := (general db.userContributions 0).2 c hc
  unfold freshId
  omega

/-- One authenticated submission preserves the store invariants:
globally distinct row ids, distinct tags within the caller's tuple, and
at most three rows in the tuple. -/
theorem submitStep_preserves (u : Nat) (slug : String) (db : Db) (s : Submission)
    (h : (db.userContributions.map (fun c => c.id)).Nodup
      ∧ ((tupleRows u slug db.userContributions).map (fun c => c.tag)).Nodup
      ∧ (tupleRows u slug db.userContributions).length ≤ 3) :
    ((submitStep u slug db s).userContributions.map (fun c => c.id)).Nodup
    ∧ ((tupleRows u slug (submitStep u slug db s).userContributions).map
        (fun c => c.tag)).Nodup
    ∧ (tupleRows u slug (submitStep u slug db s).userContributions).length ≤ 3 := by
  rcases h with ⟨h1, h2, h3⟩
  rcases s with ⟨body, now⟩
  cases body with
  | none => exact ⟨h1, h2, h3⟩
  | some tf =>
    cases tf with
    | notArray => exact ⟨h1, h2, h3⟩
    | array l =>
      by_cases hempty : (normalizeInput l).isEmpty
      · have hEq : submitStep u slug db ⟨some (.array l), now⟩ = db := by
          unfold submitStep
          simp [createTags, hempty]
        rw [hEq]
        exact ⟨h1, h2, h3⟩
      · by_cases hbad : containsBadWords (normalizeInput l) = true
        · have hEq : submitStep u slug db ⟨some (.array l), now⟩ = db := by
            unfold submitStep
            simp [createTags, hempty, hbad]
          rw [hEq]
          exact ⟨h1, h2, h3⟩
        · have hEq : (submitStep u slug db ⟨some (.array l), now⟩).userContributions
              = processUserTags u slug (normalizeInput l) now (freshId db)
                  db.userContributions := by
            unfold submitStep
            simp [createTags, hempty, hbad]
          rw [hEq]
          have hfacts := processUserTags_facts u slug (normalizeInput l) now
            (freshId db) db.userContributions h1 (freshId_lt db)
            (dedupKeepFirst_go_nodup _ []) h2
          exact ⟨hfacts.1, hfacts.2.1, hfacts.2.2.2⟩

/-- C1: over any sequence of tag submissions by one user to one media
item, starting from an empty store, after each submission the caller's
tuple holds at most three live contribution rows. -/
theorem c1_at_most_three_live_rows (u : Nat) (slug : String)
    (subs : List Submission) (n : Nat) :
    (tupleRows u slug
        (submitAll u slug (subs.take n) emptyDb).userContributions).length ≤ 3 := by
  have inv : ∀ (ss : List Submission) (db : Db),
      ((db.userContributions.map (fun c => c.id)).Nodup
        ∧ ((tupleRows u slug db.userContributions).map (fun c => c.tag)).Nodup
        ∧ (tupleRows u slug db.userContributions).length ≤ 3) →
      ((submitAll u slug ss db).userContributions.map (fun c => c.id)).Nodup
        ∧ ((tupleRows u slug (submitAll u slug ss db).userContributions).map
            (fun c => c.tag)).Nodup
        ∧ (tupleRows u slug (submitAll u slug ss db).userContributions).length ≤ 3 := by
    intro ss
    induction ss with
    | nil => intro db hdb; exact hdb
    | cons s ss ih =>
      intro db hdb
      exact ih (submitStep u slug db s) (submitStep_preserves u slug db s hdb)
  exact (inv (subs.take n) emptyDb
    ⟨by simp [emptyDb], by simp [emptyDb, tupleRows], by simp [emptyDb, tupleRows]⟩).2.2

/-- C3: when more than three candidates compete, the three survivors
are exactly the candidates with the greatest `updatedAt` (stated for
pairwise distinct recency keys: every dropped candidate is strictly
older than every survivor, and exactly three survive); and in the
4th-distinct-tag scenario — three live rows, all resubmitted together
with one new tag — the reconciliation keeps the new tag and the two
most recently touched old tags and evicts exactly the least recently
touched one. -/
theorem c3_eviction_drops_least_recent (u : Nat) (slug : String)
    (now nextId : Nat) (db : List UserContribution) :
    (∀ tags : List String,
      ((candidateRows u slug tags now nextId db).map timeOf).Nodup →
      3 < (candidateRows u slug tags now nextId db).length →
      (finalRows u slug tags now nextId db).length = 3
      ∧ ∀ c ∈ finalRows u slug tags now nextId db,
          ∀ d ∈ (sortByTimeDesc (candidateRows u slug tags now nextId db)).drop 3,
            timeOf d < timeOf c)
    ∧ (∀ e1 e2 e3 : UserContribution, ∀ t4 : String,
        tupleRows u slug db = [e1, e2, e3] →
        (db.map (fun c => c.id)).Nodup →
        e1.tag ≠ e2.tag → e1.tag ≠ e3.tag → e2.tag ≠ e3.tag →
        t4 ≠ e1.tag → t4 ≠ e2.tag → t4 ≠ e3.tag →
        timeOf e1 < timeOf e2 → timeOf e2 < timeOf e3 → timeOf e3 < now →
        (tupleRows u slug
            (processUserTags u slug [e1.tag, e2.tag, e3.tag, t4] now nextId db)).map
            (fun c => c.tag) = [e2.tag, e3.tag, t4]
        ∧ e1.tag ∉ (tupleRows u slug
            (processUserTags u slug [e1.tag, e2.tag, e3.tag, t4] now nextId db)).map
            (fun c => c.tag)) := by
  constructor
  · intro tags hnod hlen
    have hperm := sortByTimeDesc_perm (candidateRows u slug tags now nextId db)
    have hlenL : 3 < (sortByTimeDesc (candidateRows u slug tags now nextId db)).length := by
      rw [hperm.length_eq]
      exact hlen
    constructor
    · unfold finalRows
      rw [List.length_take]
      omega
    · intro c hc d hd
      have hsorted := sortByTimeDesc_pairwise (candidateRows u slug tags now nextId db)
      have hne : (sortByTimeDesc (candidateRows u slug tags now nextId db)).Pairwise
          (fun a b => timeOf a ≠ timeOf b) := by
        rw [← List.pairwise_map]
        exact (hperm.map timeOf).nodup_iff.mpr hnod
      rw [← List.take_append_drop 3
        (sortByTimeDesc (candidateRows u slug tags now nextId db))] at hsorted hne
      rcases List.pairwise_append.mp hsorted with ⟨_, _, hcross⟩
      rcases List.pairwise_append.mp hne with ⟨_, _, hcrossne⟩
      exact lt_of_le_of_ne (hcross c hc d hd) (Ne.symm (hcrossne c hc d hd))
  · intro e1 e2 e3 t4 hrows hids h12 h13 h23 h41 h42 h43 ht12 ht23 ht3n
    have h1n : timeOf e1 < now := by omega
    have h2n : timeOf e2 < now := by omega
    have h13t : timeOf e1 < timeOf e3 := by omega
    have hmap : buildTagMap [e1, e2, e3]
        = [(e1.tag, e1), (e2.tag, e2), (e3.tag, e3)] := by
      simp [buildTagMap, tagMapSet, h12, h13, h23]
    have hpart : partitionTags u slug now
        [(e1.tag, e1), (e2.tag, e2), (e3.tag, e3)]
        [e1.tag, e2.tag, e3.tag, t4] nextId
        = ([e1.tag, e2.tag, e3.tag, t4],
           [{ id := nextId, userId := u, mediaSlug := slug, mediaType := .videoGame,
              tag := t4, timestamp := now, updated_at := some now }],
           [e1.id, e2.id, e3.id]) := by
      simp [partitionTags, tagMapFind, tagMapErase, List.find?]
    have hkeepOf : tagsToKeepOf u slug [e1.tag, e2.tag, e3.tag, t4] now nextId db
        = [e1.tag, e2.tag, e3.tag, t4] := by
      unfold tagsToKeepOf
      rw [hrows, hmap, hpart]
    have hins : insertedRows u slug [e1.tag, e2.tag, e3.tag, t4] now nextId db
        = [{ id := nextId, userId := u, mediaSlug := slug, mediaType := .videoGame,
             tag := t4, timestamp := now, updated_at := some now }] := by
      unfold insertedRows
      rw [hrows, hmap, hpart]
    have href : refreshIds u slug [e1.tag, e2.tag, e3.tag, t4] now nextId db
        = [e1.id, e2.id, e3.id] := by
      unfold refreshIds
      rw [hrows, hmap, hpart]
    have hcand : candidateRows u slug [e1.tag, e2.tag, e3.tag, t4] now nextId db
        = [e1, e2, e3,
           { id := nextId, userId := u, mediaSlug := slug, mediaType := .videoGame,
             tag := t4, timestamp := now, updated_at := some now }] := by
      unfold candidateRows
      rw [hrows, hkeepOf, hins]
      simp
    have hsort : sortByTimeDesc
        [e1, e2, e3,
         { id := nextId, userId := u, mediaSlug := slug, mediaType := .videoGame,
           tag := t4, timestamp := now, updated_at := some now }]
        = [{ id := nextId, userId := u, mediaSlug := slug, mediaType := .videoGame,
             tag := t4, timestamp := now, updated_at := some now }, e3, e2, e1] := by
      have hnU : timeOf ⟨nextId, u, slug, .videoGame, t4, now, some now⟩ = now := rfl
      simp [sortByTimeDesc, insertByTime, hnU, ht12, ht23, ht3n, h1n, h2n, h13t]
    have hfinal : finalRows u slug [e1.tag, e2.tag, e3.tag, t4] now nextId db
        = [{ id := nextId, userId := u, mediaSlug := slug, mediaType := .videoGame,
             tag := t4, timestamp := now, updated_at := some now }, e3, e2] := by
      unfold finalRows
      rw [hcand, hsort]
      rfl
    have hkept : keptTags u slug [e1.tag, e2.tag, e3.tag, t4] now nextId db
        = [t4, e3.tag, e2.tag] := by
      unfold keptTags
      rw [hfinal]
      rfl
    have hupdIds : updatedIds u slug [e1.tag, e2.tag, e3.tag, t4] now nextId db
        = [e2.id, e3.id] := by
      unfold updatedIds
      rw [hrows, hkept, href]
      simp [Ne.symm h41, h12, h13, Ne.symm h42, h23, Ne.symm h43]
    have hinsF : insertedFinal u slug [e1.tag, e2.tag, e3.tag, t4] now nextId db
        = [{ id := nextId, userId := u, mediaSlug := slug, mediaType := .videoGame,
             tag := t4, timestamp := now, updated_at := some now }] := by
      unfold insertedFinal
      rw [hins, hkept]
      simp
    have hstruct := tupleRows_processUserTags u slug [e1.tag, e2.tag, e3.tag, t4]
      now nextId db hids
    rw [hstruct, hrows, hkept, hupdIds, hinsF]
    constructor
    · simp [Ne.symm h41, h12, h13, Ne.symm h42, h23, Ne.symm h43]
    · simp [Ne.symm h41, h12, h13, Ne.symm h42, h23, Ne.symm h43, h41]

/-- C3 witness: a concrete instance of the 4th-tag scenario — rows
tagged "a" (oldest), "b", "c" resubmitted together with new tag "d"
keep `{b, c, d}` and evict exactly "a". -/
theorem c3_eviction_drops_least_recent_witness :
    (tupleRows 7 "g"
        (processUserTags 7 "g" ["a", "b", "c", "d"] 40 4
          [⟨1, 7, "g", .videoGame, "a", 10, some 10⟩,
           ⟨2, 7, "g", .videoGame, "b", 20, some 20⟩,
           ⟨3, 7, "g", .videoGame, "c", 30, some 30⟩])).map (fun c => c.tag)
      = ["b", "c", "d"]
    ∧ "a" ∉ (tupleRows 7 "g"
        (processUserTags 7 "g" ["a", "b", "c", "d"] 40 4
          [⟨1, 7, "g", .videoGame, "a", 10, some 10⟩,
           ⟨2, 7, "g", .videoGame, "b", 20, some 20⟩,
           ⟨3, 7, "g", .videoGame, "c", 30, some 30⟩])).map (fun c => c.tag) := by
  exact (c3_eviction_drops_least_recent 7 "g" 40 4
      [⟨1, 7, "g", .videoGame, "a", 10, some 10⟩,
       ⟨2, 7, "g", .videoGame, "b", 20, some 20⟩,
       ⟨3, 7, "g", .videoGame, "c", 30, some 30⟩]).2
    ⟨1, 7, "g", .videoGame, "a", 10, some 10⟩
    ⟨2, 7, "g", .videoGame, "b", 20, some 20⟩
    ⟨3, 7, "g", .videoGame, "c", 30, some 30⟩ "d"
    (by decide) (by decide) (by decide) (by decide) (by decide)
    (by decide) (by decide) (by decide) (by decide) (by decide) (by decide)

/-- C2 witness: one user submits one tag on an empty database; the
stored aggregate exists and mirrors the single live row. -/
theorem c2_aggregate_equals_live_distinct_tags_witness :
    lookupMediaTag "g" ((createTags "g" (some (.array [.str "a"])) (some 1) 5 1 emptyDb).2.mediaTags)
      = some { mediaSlug := "g", mediaType := .videoGame, tags := ["a"], updated_at := 5 }
    ∧ ("a" ∈ ({ mediaSlug := "g", mediaType := .videoGame, tags := ["a"], updated_at := 5 } : MediaTagRec).tags ↔
        "a" ∈ (((createTags "g" (some (.array [.str "a"])) (some 1) 5 1 emptyDb).2.userContributions.filter
            (fun c => c.mediaSlug == "g" && c.mediaType == MediaType.videoGame)).map
          (fun c => c.tag))) := by
  refine ⟨by decide, ?_⟩
  exact (c2_aggregate_equals_live_distinct_tags "g" (some (.array [.str "a"]))
    (some 1) 5 1 emptyDb (by decide) (by decide)).1 _ (by decide) "a"

end Kohai
